import Mathlib

/-!
# Verification of the mira-feedback PII anonymization engine

This file gives a shallow embedding, in Lean 4, of the core of the
`mira-feedback` anonymization engine:

* the text chunker (`src/mira/libs/text_chunker.py`),
* the regex PII detector, detection mergers, entity tag registry and
  substitution pipeline of `LocalAnonymizer`
  (`src/mira/libs/local_anonymizer/anonymizer.py`),
* the deanonymizer (`src/mira/libs/local_anonymizer/deanonymizer.py`),
* the Moodle-aware filename anonymizer and the per-directory processing
  loop of `DirectoryAnonymizer`
  (`src/shilads_helpers/tools/dir_anonymizer/anonymizer.py`).

Python strings are embedded as `List Char`.  Python's `str.replace`,
`in`, `split`, `join`, `strip` and `startswith` are embedded as
executable functions with matching semantics (including the
empty-pattern behaviour of `replace`).  External detector backends
(Presidio / LLM) are modelled as oracle parameters, as is the iteration
order of Python's hash-based `set` (the engine calls `list(set(...))`,
whose enumeration order is unspecified; it is passed in as a function
`σ` assumed only to enumerate the set's elements without duplicates).

The second half of the file develops a small verified theory of literal
string replacement (greedy, leftmost, non-overlapping — exactly Python's
`str.replace`) and uses it to settle round-trip, ordering and stability
claims about the engine.
-/

set_option maxHeartbeats 1000000
set_option linter.unusedVariables false
set_option linter.unnecessarySimpa false

namespace Mira

/-- Python strings, embedded as lists of characters. -/
abbrev Str := List Char

/-- Convert a Lean string literal to the embedded representation. -/
def strOf (s : String) : Str := s.toList

/-! ## Embedded Python string primitives -/

/-- Python's `pat in s` substring test (`"" in s` is `True`). -/
def pyIn (pat s : Str) : Bool := decide (pat <:+: s)

/-- Greedy, leftmost, non-overlapping replacement of a *non-empty*
pattern; the workhorse of Python's `str.replace`.  Written with
explicit fuel (one unit per consumed character, which suffices for a
non-empty pattern) so that the kernel can evaluate it. -/
def replGo (pat rep : Str) : Nat → Str → Str
  | _, [] => []
  | 0, s => s
  | fuel + 1, c :: s =>
    if pat ≠ [] ∧ pat <+: (c :: s) then
      rep ++ replGo pat rep fuel ((c :: s).drop pat.length)
    else
      c :: replGo pat rep fuel s

/-- `repl pat rep s`: replace every occurrence of the non-empty `pat`
in `s` by `rep`, scanning left to right. -/
def repl (pat rep s : Str) : Str := replGo pat rep s.length s

/-- The fuel argument of `replGo` is irrelevant once it covers the
string length. -/
theorem replGo_fuel (pat rep : Str) :
    ∀ (f₁ : Nat) (s : Str) (f₂ : Nat), s.length ≤ f₁ → s.length ≤ f₂ →
      replGo pat rep f₁ s = replGo pat rep f₂ s := by
  intro f₁
  induction f₁ with
  | zero =>
    intro s f₂ h₁ _
    match s, h₁ with
    | [], _ => cases f₂ <;> rfl
  | succ g ih =>
    intro s f₂ h₁ h₂
    match s with
    | [] => cases f₂ <;> rfl
    | c :: s' =>
      cases f₂ with
      | zero => simp at h₂
      | succ h =>
        show replGo pat rep (g + 1) (c :: s') = replGo pat rep (h + 1) (c :: s')
        rw [replGo, replGo]
        by_cases hp : pat ≠ [] ∧ pat <+: (c :: s')
        · rw [if_pos hp, if_pos hp]
          have hpl : 1 ≤ pat.length := List.length_pos.mpr hp.1
          have hlen : ((c :: s').drop pat.length).length ≤ g ∧
              ((c :: s').drop pat.length).length ≤ h := by
            simp only [List.length_drop, List.length_cons]
            simp at h₁ h₂
            omega
          rw [ih _ h hlen.1 hlen.2]
        · rw [if_neg hp, if_neg hp]
          have : s'.length ≤ g ∧ s'.length ≤ h := by simp at h₁ h₂; omega
          rw [ih _ h this.1 this.2]

/-- Python's `s.replace("", rep)` inserts `rep` at every position. -/
def emptyPatRepl (rep : Str) : Str → Str
  | [] => rep
  | c :: s => rep ++ c :: emptyPatRepl rep s

/-- Python's `s.replace(pat, rep)` (replace all occurrences). -/
def pyReplace (s pat rep : Str) : Str :=
  if pat = [] then emptyPatRepl rep s else repl pat rep s

/-- Split on a single character (Python's `s.split('\n')`;
`"".split('\n') == ['']`). -/
def splitOnChar (sep : Char) : Str → List Str
  | [] => [[]]
  | c :: s =>
    if c = sep then
      [] :: splitOnChar sep s
    else
      match splitOnChar sep s with
      | [] => [[c]]
      | p :: ps => (c :: p) :: ps

/-- Python whitespace for `str.split()` / `str.strip()` (`\s`-style). -/
def pyIsSpace (c : Char) : Bool :=
  c = ' ' || c = '\t' || c = '\n' || c = '\r' ||
  c = '\x0b' || c = '\x0c'

/-- Python's argument-less `s.split()`: split on whitespace runs,
dropping empty fragments. -/
def splitWs : Str → List Str
  | [] => []
  | c :: s =>
    if pyIsSpace c then
      splitWs s
    else
      match splitWs s with
      | [] => [[c]]
      | p :: ps =>
        match s with
        | [] => [[c]]
        | d :: _ => if pyIsSpace d then [c] :: p :: ps else (c :: p) :: ps

/-- Python's `sep.join(parts)`. -/
def joinWith (sep : Str) : List Str → Str
  | [] => []
  | [p] => p
  | p :: ps => p ++ sep ++ joinWith sep ps

/-- Python's `s.strip()` (strip leading and trailing whitespace). -/
def pyStrip (s : Str) : Str :=
  ((s.dropWhile (pyIsSpace ·)).reverse.dropWhile (pyIsSpace ·)).reverse

/-- Python's `words[-n:]` for a non-empty bound (used via an explicit
length guard in the source). -/
def takeLast (n : Nat) (l : List α) : List α := l.drop (l.length - n)

/-! ## Text chunker — `src/mira/libs/text_chunker.py`

`chunk_text(text, count_tokens, max_tokens, lookback_words)` splits on
lines, accumulates lines up to the token budget, splits overlong lines
by words, and prefixes chunks with lookback words from the previous
chunk.  Token counts are Python ints (`Int` here); `//` is Python floor
division (`Int.fdiv`).  The one way the function can raise is a
`ZeroDivisionError` when `max_tokens = 0` and a line has a positive
token count; the embedding returns `none` there. -/

/-- `_get_last_words(text, num_words)`. -/
def getLastWords (text : Str) (numWords : Nat) : List Str :=
  let words := splitWs (pyReplace text (strOf "\n") (strOf " "))
  if words.length ≤ numWords then words else takeLast numWords words

/-- `_format_chunk(lines, previous_words)`. -/
def formatChunk (lines : List Str) (previousWords : List Str) : Str :=
  let chunkText := joinWith (strOf "\n") lines
  if previousWords ≠ [] then
    let lookbackText := joinWith (strOf " ") previousWords
    if lookbackText.isPrefixOf chunkText then chunkText
    else lookbackText ++ strOf "\n" ++ chunkText
  else chunkText

/-- The inner loop of the long-line branch:
`for i in range(0, len(words), words_per_chunk)` with
`words_per_chunk ≥ 1`, yielding one chunk per slice and threading
`previous_words`. -/
def longLineLoopGo (lookbackWords : Nat) (wordsPerChunk : Nat) :
    Nat → List Str → List Str → List Str × List Str
  | _, previousWords, [] => ([], previousWords)
  | 0, previousWords, ws => ([], previousWords)
  | fuel + 1, previousWords, w :: ws =>
    let fragmentWords := (w :: ws).take (max 1 wordsPerChunk)
    let fragment := joinWith (strOf " ") fragmentWords
    let chunk := formatChunk [fragment] previousWords
    let newPrev :=
      if fragmentWords.length > lookbackWords then takeLast lookbackWords fragmentWords
      else fragmentWords
    let r := longLineLoopGo lookbackWords wordsPerChunk fuel newPrev
      ((w :: ws).drop (max 1 wordsPerChunk))
    (chunk :: r.1, r.2)

def longLineLoop (lookbackWords : Nat) (wordsPerChunk : Nat)
    (previousWords : List Str) (ws : List Str) : List Str × List Str :=
  longLineLoopGo lookbackWords wordsPerChunk ws.length previousWords ws

theorem longLineLoopGo_fuel (lookbackWords wordsPerChunk : Nat) :
    ∀ (f₁ : Nat) (ws : List Str) (f₂ : Nat) (prev : List Str),
      ws.length ≤ f₁ → ws.length ≤ f₂ →
      longLineLoopGo lookbackWords wordsPerChunk f₁ prev ws =
        longLineLoopGo lookbackWords wordsPerChunk f₂ prev ws := by
  intro f₁
  induction f₁ with
  | zero =>
    intro ws f₂ prev h₁ _
    match ws, h₁ with
    | [], _ => cases f₂ <;> rfl
  | succ g ih =>
    intro ws f₂ prev h₁ h₂
    match ws with
    | [] => cases f₂ <;> rfl
    | w :: ws' =>
      cases f₂ with
      | zero => simp at h₂
      | succ h =>
        show longLineLoopGo lookbackWords wordsPerChunk (g + 1) prev (w :: ws') =
          longLineLoopGo lookbackWords wordsPerChunk (h + 1) prev (w :: ws')
        rw [longLineLoopGo, longLineLoopGo]
        have hlen : ((w :: ws').drop (max 1 wordsPerChunk)).length ≤ g ∧
            ((w :: ws').drop (max 1 wordsPerChunk)).length ≤ h := by
          simp only [List.length_drop, List.length_cons]
          simp at h₁ h₂
          omega
        rw [ih _ h _ hlen.1 hlen.2]

/-- State of the chunker's accumulation loop. -/
structure ChunkSt where
  chunks : List Str
  currentChunkLines : List Str
  currentTokens : Int
  previousWords : List Str

/-- One iteration of `for line in lines`. -/
def chunkLineStep (countTokens : Str → Int) (maxTokens : Int)
    (lookbackWords : Nat) (st : ChunkSt) (line : Str) : Option ChunkSt :=
  let lineTokens := countTokens line
  if lineTokens > maxTokens then
    -- flush accumulated lines
    let st :=
      if st.currentChunkLines ≠ [] then
        { st with
          chunks := st.chunks ++ [formatChunk st.currentChunkLines st.previousWords]
          previousWords :=
            getLastWords (joinWith (strOf "\n") st.currentChunkLines) lookbackWords
          currentChunkLines := []
          currentTokens := 0 }
      else st
    let words := splitWs line
    if words = [] then some st
    else if maxTokens = 0 then none   -- Python: ZeroDivisionError
    else
      let chunksNeeded : Int := max 1 ((lineTokens + maxTokens - 1).fdiv maxTokens)
      let wordsPerChunk : Int := max 1 ((words.length : Int).fdiv chunksNeeded)
      let (newChunks, prev) :=
        longLineLoop lookbackWords wordsPerChunk.toNat st.previousWords words
      some { st with chunks := st.chunks ++ newChunks, previousWords := prev }
  else if st.currentTokens + lineTokens > maxTokens ∧ st.currentChunkLines ≠ [] then
    some { st with
      chunks := st.chunks ++ [formatChunk st.currentChunkLines st.previousWords]
      previousWords :=
        getLastWords (joinWith (strOf "\n") st.currentChunkLines) lookbackWords
      currentChunkLines := [line]
      currentTokens := lineTokens }
  else
    some { st with
      currentChunkLines := st.currentChunkLines ++ [line]
      currentTokens := st.currentTokens + lineTokens }

/-- Fold `chunkLineStep` over the lines. -/
def chunkLines (countTokens : Str → Int) (maxTokens : Int)
    (lookbackWords : Nat) (st : ChunkSt) : List Str → Option ChunkSt
  | [] => some st
  | l :: ls => do
    let st' ← chunkLineStep countTokens maxTokens lookbackWords st l
    chunkLines countTokens maxTokens lookbackWords st' ls

/-- `chunk_text(text, count_tokens, max_tokens, lookback_words)`,
materialized (the Python caller does `list(chunk_text(...))`).
`none` models the `ZeroDivisionError` raised for `max_tokens = 0` on a
line with a positive token count. -/
def chunkText (countTokens : Str → Int) (maxTokens : Int)
    (lookbackWords : Nat) (text : Str) : Option (List Str) := do
  let lines := splitOnChar '\n' text
  let st ← chunkLines countTokens maxTokens lookbackWords
    ⟨[], [], 0, []⟩ lines
  -- yield any remaining lines
  if st.currentChunkLines ≠ [] then
    pure (st.chunks ++ [formatChunk st.currentChunkLines st.previousWords])
  else
    pure st.chunks

/-! ## Regex engine for `_detect_regex_patterns`

`LocalAnonymizer._detect_regex_patterns` uses five fixed `re` patterns
through `re.findall`.  Every quantifier in these patterns applies to a
single character class and no pattern has a capturing group, so a small
backtracking matcher over the following syntax suffices.  Greedy
quantifiers and ordered alternatives follow Python `re` semantics:
longest-first for `+`/`?`/`{m,n}`, leftmost non-overlapping scanning
for `findall`. -/

/-- Python's `\w` (ASCII range; all characters in these texts are ASCII). -/
def isWordChar (c : Char) : Bool := c.isAlphanum || c = '_'

/-- Regular expressions as used by `_detect_regex_patterns`. -/
inductive RE where
  | cls (p : Char → Bool)      -- single character from a class
  | seq (a b : RE)             -- concatenation
  | opt (a : RE)               -- `a?`, greedy
  | plus (p : Char → Bool)     -- `p+` for a class, greedy
  | wordB                      -- `\b`

/-- `\b`: word character on exactly one side of the position. -/
def atBoundary (prev : Option Char) (s : Str) : Bool :=
  let pw := match prev with | none => false | some c => isWordChar c
  let nw := match s with | [] => false | c :: _ => isWordChar c
  pw != nw

/-- Greedy `p+`: try consuming `n, n-1, …, 1` characters of the maximal
`p`-run, first success wins. -/
def plusTry (s : Str) (prev : Option Char)
    (k : Option Char → Str → Option Str) : Nat → Option Str
  | 0 => none
  | n + 1 =>
    match k (((s.take (n + 1)).getLast?).orElse (fun _ => prev)) (s.drop (n + 1)) with
    | some r => some r
    | none => plusTry s prev k n

/-- Backtracking matcher: match `re` against a prefix of `s`, then call
the continuation with the last consumed character and the rest; the
first success in backtracking order wins (Python `re` semantics). -/
def mrun : RE → Option Char → Str → (Option Char → Str → Option Str) → Option Str
  | .cls p, _, s, k =>
    match s with
    | [] => none
    | c :: s' => if p c then k (some c) s' else none
  | .seq a b, prev, s, k => mrun a prev s (fun prev' s' => mrun b prev' s' k)
  | .opt a, prev, s, k =>
    match mrun a prev s k with
    | some r => some r
    | none => k prev s
  | .plus p, prev, s, k =>
    plusTry s prev k ((s.takeWhile p).length)
  | .wordB, prev, s, k => if atBoundary prev s then k prev s else none

/-- Scan for the leftmost match at or after the current position; on a
match, emit the matched substring and continue after it
(`re.findall` semantics; all five patterns only produce non-empty
matches, and each step consumes at least one character, so
`s.length + 1` fuel is enough). -/
def refindAux (re : RE) : Nat → Option Char → Str → List Str
  | 0, _, _ => []
  | _ + 1, _, [] =>
    []
  | fuel + 1, prev, s =>
    match mrun re prev s (fun _ rest => some rest) with
    | some rest =>
      let len := s.length - rest.length
      if len = 0 then
        -- unreachable for these patterns; skip a character to make progress
        match s with
        | [] => []
        | c :: s' => refindAux re fuel (some c) s'
      else
        s.take len ::
          refindAux re fuel ((s.take len).getLast?.orElse (fun _ => prev)) rest
    | none =>
      match s with
      | [] => []
      | c :: s' => refindAux re fuel (some c) s'

/-- `re.findall(pattern, text)` for the supported patterns. -/
def refind (re : RE) (s : Str) : List Str := refindAux re (s.length + 1) none s

/-- Concatenation of a pattern list. -/
def seqs : List RE → RE
  | [] => .wordB  -- unused; all call sites pass non-empty lists
  | [r] => r
  | r :: rs => .seq r (seqs rs)

/-- Literal character. -/
def chr (c : Char) : RE := .cls (· = c)

/-- `p*` as greedy `p+`-or-nothing. -/
def star (p : Char → Bool) : RE := .opt (.plus p)

/-- `[0-9]{1,3}`, greedy (tries 3, then 2, then 1). -/
def rep13 (p : Char → Bool) : RE :=
  .seq (.cls p) (.opt (.seq (.cls p) (.opt (.cls p))))

/-- `\d`. -/
def isDigitC (c : Char) : Bool := c.isDigit

/-- `[-\s]`. -/
def dashWs (c : Char) : Bool := c = '-' || pyIsSpace c

/-- `[-.\s]`. -/
def phoneSep (c : Char) : Bool := c = '-' || c = '.' || pyIsSpace c

/-- `[A-Za-z0-9._%+-]`. -/
def emailLocalC (c : Char) : Bool :=
  c.isAlphanum || c = '.' || c = '_' || c = '%' || c = '+' || c = '-'

/-- `[A-Za-z0-9.-]`. -/
def emailDomainC (c : Char) : Bool := c.isAlphanum || c = '.' || c = '-'

/-- `[A-Z|a-z]` (the source's class literally includes `|`). -/
def alphaBarC (c : Char) : Bool :=
  ('A' ≤ c && c ≤ 'Z') || ('a' ≤ c && c ≤ 'z') || c = '|'

/-- `\b\d{3}-\d{2}-\d{4}\b` (SSN). -/
def ssnRE : RE :=
  seqs [.wordB, .cls isDigitC, .cls isDigitC, .cls isDigitC, chr '-',
        .cls isDigitC, .cls isDigitC, chr '-',
        .cls isDigitC, .cls isDigitC, .cls isDigitC, .cls isDigitC, .wordB]

/-- `\b\d{4}[-\s]?\d{4}[-\s]?\d{4}[-\s]?\d{4}\b` (credit cards). -/
def creditRE : RE :=
  let d4 : List RE := [.cls isDigitC, .cls isDigitC, .cls isDigitC, .cls isDigitC]
  seqs ([RE.wordB] ++ d4 ++ [.opt (.cls dashWs)] ++ d4 ++ [.opt (.cls dashWs)]
        ++ d4 ++ [.opt (.cls dashWs)] ++ d4 ++ [RE.wordB])

/-- `\b[A-Za-z0-9._%+-]+@[A-Za-z0-9.-]+\.[A-Z|a-z]{2,}\b` (emails). -/
def emailRE : RE :=
  seqs [.wordB, .plus emailLocalC, chr '@', .plus emailDomainC, chr '.',
        .cls alphaBarC, .cls alphaBarC, star alphaBarC, .wordB]

/-- `\b(?:\+?1[-.\s]?)?\(?\d{3}\)?[-.\s]?\d{3}[-.\s]?\d{4}\b` (phones). -/
def phoneRE : RE :=
  seqs [.wordB,
        .opt (seqs [.opt (chr '+'), chr '1', .opt (.cls phoneSep)]),
        .opt (chr '('),
        .cls isDigitC, .cls isDigitC, .cls isDigitC,
        .opt (chr ')'),
        .opt (.cls phoneSep),
        .cls isDigitC, .cls isDigitC, .cls isDigitC,
        .opt (.cls phoneSep),
        .cls isDigitC, .cls isDigitC, .cls isDigitC, .cls isDigitC,
        .wordB]

/-- `\b(?:[0-9]{1,3}\.){3}[0-9]{1,3}\b` (IPv4). -/
def ipv4RE : RE :=
  let grp := RE.seq (rep13 isDigitC) (chr '.')
  seqs [.wordB, grp, grp, grp, rep13 isDigitC, .wordB]

/-- Association-list lookup (`d[k]` / `k in d`). -/
def lookupA (l : List (Str × α)) (k : Str) : Option α :=
  (l.find? (fun p => p.1 = k)).map (·.2)

/-- `_detect_regex_patterns(text)`.

`σ` is the iteration order of Python's `set` (the code stores
`list(set(matches))`): an oracle that enumerates the distinct elements
of a list in an unspecified order.  Dict insertion order follows the
source: `ssn` first (when non-empty), then `credit_cards`, `emails`,
`phones`, `ipv4` as found. -/
def detectRegexPatterns (σ : List Str → List Str) (text : Str) :
    List (Str × List Str) :=
  let ssnMatches := refind ssnRE text
  let detected := if ssnMatches ≠ [] then [(strOf "ssn", σ ssnMatches)] else []
  let step := fun (detected : List (Str × List Str)) (cat : Str) (re : RE) =>
    let ms := refind re text
    let ms := if cat = strOf "phones" then
        match lookupA detected (strOf "ssn") with
        | some ssns => ms.filter (fun m => ¬ m ∈ ssns)
        | none => ms
      else ms
    if ms ≠ [] then detected ++ [(cat, σ ms)] else detected
  step (step (step (step detected (strOf "credit_cards") creditRE)
    (strOf "emails") emailRE) (strOf "phones") phoneRE) (strOf "ipv4") ipv4RE

/-! ## `LocalAnonymizer` — `src/mira/libs/local_anonymizer/anonymizer.py`

The Presidio backend is an external library; it enters the pipeline
only through `backend.num_tokens` (the chunker's token counter `κ`) and
`backend.detect_pii` (per-chunk detections `By`), so both are oracle
parameters.  `σ` is the `list(set(...))` enumeration-order oracle. -/

/-- Registry state: `entity_counters` (a `defaultdict(int)`) and
`entity_memory` (original → token, insertion-ordered). -/
structure AnonState where
  counters : List (Str × Nat)
  memory : List (Str × Str)
deriving DecidableEq, Repr

/-- `LocalAnonymizer.reset()` state (also the state of a fresh instance). -/
def freshState : AnonState := ⟨[], []⟩

/-- Python dict `d[k] = v`: update in place, else append. -/
def dictSet (m : List (Str × α)) (k : Str) (v : α) : List (Str × α) :=
  if (lookupA m k).isSome then
    m.map (fun p => if p.1 = k then (k, v) else p)
  else m ++ [(k, v)]

/-- `defaultdict(int)` read. -/
def ctrGet (ctr : List (Str × Nat)) (tag : Str) : Nat := (lookupA ctr tag).getD 0

/-- `str.upper()` (ASCII). -/
def pyUpper (s : Str) : Str := s.map Char.toUpper

/-- `str.rstrip('S')`. -/
def rstripS (s : Str) : Str := (s.reverse.dropWhile (· = 'S')).reverse

/-- The `tag_names` table of `_generate_replacement`. -/
def tagNames : List (Str × Str) :=
  [(strOf "persons", strOf "PERSON"), (strOf "emails", strOf "EMAIL"),
   (strOf "phones", strOf "PHONE"), (strOf "addresses", strOf "ADDRESS"),
   (strOf "organizations", strOf "ORG"), (strOf "credit_cards", strOf "CREDITCARD"),
   (strOf "ssn", strOf "SSN"), (strOf "ipv4", strOf "IP")]

/-- `tag_names.get(category, category.upper().rstrip('S'))`. -/
def tagNameOf (category : Str) : Str :=
  match lookupA tagNames category with
  | some t => t
  | none => rstripS (pyUpper category)

/-- `_generate_replacement(category, original)`: bump the tag's counter
and build `REDACTED_<TAG><counter>` (the `original` argument is unused
in the source, too). -/
def generateReplacement (st : AnonState) (category : Str) : Str × AnonState :=
  let tagName := tagNameOf category
  let counter := ctrGet st.counters tagName + 1
  (strOf "REDACTED_" ++ tagName ++ strOf (toString counter),
   { st with counters := dictSet st.counters tagName counter })

/-- The body of the per-entity branch of `anonymize_data`: look the
entity up in `entity_memory`, otherwise generate and remember a fresh
token. -/
def resolveToken (st : AnonState) (category entity : Str) : Str × AnonState :=
  match lookupA st.memory entity with
  | some r => (r, st)
  | none =>
    let (r, st') := generateReplacement st category
    (r, { st' with memory := st'.memory ++ [(entity, r)] })

/-- The substitution loop of `anonymize_data`, over the flattened
`(category, entity)` pairs (dict iteration order; a category with an
empty entity list contributes nothing, matching
`if not entities: continue`). -/
def procPairs (st : AnonState) (text : Str) (mappings : List (Str × Str)) :
    List (Str × Str) → Str × List (Str × Str) × AnonState
  | [] => (text, mappings, st)
  | (category, entity) :: rest =>
    if pyIn entity text then
      let (replacement, st') := resolveToken st category entity
      procPairs st' (pyReplace text entity replacement)
        (dictSet mappings replacement entity) rest
    else procPairs st text mappings rest

/-- The fired `(entity, token)` substitutions of `procPairs`, in order. -/
def procTrace (st : AnonState) (text : Str) :
    List (Str × Str) → List (Str × Str)
  | [] => []
  | (category, entity) :: rest =>
    if pyIn entity text then
      let (replacement, st') := resolveToken st category entity
      (entity, replacement) ::
        procTrace st' (pyReplace text entity replacement) rest
    else procTrace st text rest

/-- Flatten a `category -> entities` dict into its iteration order. -/
def pairsOf (pii : List (Str × List Str)) : List (Str × Str) :=
  pii.flatMap (fun p => p.2.map (fun e => (p.1, e)))

/-- `d[category].extend(items)` after `if category not in merged:
merged[category] = []`. -/
def dictExtend (m : List (Str × List Str)) (cat : Str) (items : List Str) :
    List (Str × List Str) :=
  match lookupA m cat with
  | some _ => m.map (fun p => if p.1 = cat then (p.1, p.2 ++ items) else p)
  | none => m ++ [(cat, items)]

/-- The seen-set duplicate removal of `_merge_pii_results` (keeps the
first occurrence of each entity). -/
def dedupFirst (l : List Str) : List Str := go [] l where
  go (seen : List Str) : List Str → List Str
    | [] => []
    | x :: xs => if x ∈ seen then go seen xs else x :: go (x :: seen) xs

/-- `_merge_pii_results(results)`: per-category union across chunk
results in sequence order, then order-preserving dedup. -/
def mergePiiResults (results : List (List (Str × List Str))) :
    List (Str × List Str) :=
  let merged := results.foldl (fun m r => r.foldl (fun m p => dictExtend m p.1 p.2) m) []
  merged.map (fun p => (p.1, dedupFirst p.2))

/-- `_merge_pii_data(llm_pii, regex_pii)`: start from `llm_pii.copy()`;
for shared categories store `list(set(merged[cat] + entities))` (order
oracle `σ`), otherwise append the regex category. -/
def mergePiiData (σ : List Str → List Str)
    (llmPii regexPii : List (Str × List Str)) : List (Str × List Str) :=
  regexPii.foldl (fun merged p =>
    match lookupA merged p.1 with
    | some existing =>
      merged.map (fun q => if q.1 = p.1 then (q.1, σ (existing ++ p.2)) else q)
    | none => merged ++ [p]) llmPii

/-- `_detect_pii_chunked(text)`: chunk with the backend's token counter
(`lookback_words = 5`), run the backend on every chunk, merge. -/
def detectPiiChunked (κ : Str → Int) (maxTok : Int)
    (By : Str → List (Str × List Str)) (text : Str) :
    Option (List (Str × List Str)) :=
  (chunkText κ maxTok 5 text).map (fun chunks => mergePiiResults (chunks.map By))

/-- The `(category, entity)` pairs `anonymize_data` will iterate over:
backend detections (chunked and merged) merged with the regex
detections. -/
def anonPlan (κ : Str → Int) (maxTok : Int) (By : Str → List (Str × List Str))
    (σ : List Str → List Str) (text : Str) : Option (List (Str × Str)) :=
  (detectPiiChunked κ maxTok By text).map (fun piiData =>
    pairsOf (mergePiiData σ piiData (detectRegexPatterns σ text)))

/-- `anonymize_data(text)`: returns
`(anonymized_text, {token: original}, updated registry)`; `none` models
the `ZeroDivisionError` of the chunker (`max_tokens = 0` with a
positive-token line). -/
def anonymizeData (κ : Str → Int) (maxTok : Int)
    (By : Str → List (Str × List Str)) (σ : List Str → List Str)
    (st : AnonState) (text : Str) :
    Option (Str × List (Str × Str) × AnonState) :=
  if text = [] then some (text, [], st)
  else (anonPlan κ maxTok By σ text).map (fun pairs => procPairs st text [] pairs)

/-- The fired `(entity, token)` substitutions of one `anonymize_data`
call, in substitution order (empty when the call would raise or the
text is empty). -/
def anonTrace (κ : Str → Int) (maxTok : Int)
    (By : Str → List (Str × List Str)) (σ : List Str → List Str)
    (st : AnonState) (text : Str) : List (Str × Str) :=
  if text = [] then []
  else match anonPlan κ maxTok By σ text with
    | some pairs => procTrace st text pairs
    | none => []

/-! ## `DirectoryAnonymizer` —
`src/shilads_helpers/tools/dir_anonymizer/anonymizer.py`

The directory walker's filename handling: the Moodle submission
pattern `^(.+?)_(\d+)_(assignsubmission_\w+)$`, the forced PERSON
tagging for Moodle names, the `moodle_grades.csv` special case, and the
per-file try/except loop of `process_directory`. -/

/-- Match `_(\d+)_(assignsubmission_\w+)$` against `r` (the part after
the name's separator): a maximal non-empty digit run, then
`_assignsubmission_`, then at least one word character, to the end. -/
def moodleRest (r : Str) : Option (Str × Str) :=
  let d := r.takeWhile (·.isDigit)
  if d = [] then none
  else
    match r.drop d.length with
    | '_' :: rest2 =>
      let tag := strOf "assignsubmission_"
      if tag.isPrefixOf rest2 then
        let w := rest2.drop tag.length
        if w ≠ [] ∧ w.all (isWordChar ·) then some (d, tag ++ w) else none
      else none
    | _ => none

/-- Scan for the non-greedy `(.+?)` split: try each `_` from the left;
`.` does not match a newline. -/
def moodleAux (name : Str) : Str → Option (Str × Str × Str)
  | [] => none
  | c :: r =>
    if c = '\n' then none
    else if c = '_' ∧ name ≠ [] then
      match moodleRest r with
      | some (d, sfx) => some (name, d, sfx)
      | none => moodleAux (name ++ [c]) r
    else moodleAux (name ++ [c]) r

/-- `re.match(r'^(.+?)_(\d+)_(assignsubmission_\w+)$', filename)`,
returning the three groups. -/
def moodleMatch (filename : Str) : Option (Str × Str × Str) :=
  moodleAux [] filename

/-- `DirectoryAnonymizer.is_moodle_submission(filename)`. -/
def isMoodleSubmission (filename : Str) : Bool := (moodleMatch filename).isSome

/-- `DirectoryAnonymizer.anonymize_moodle_submission(filename)`:
anonymize only the name segment, forcing a PERSON token when the
backends leave the name unchanged; the numeric id and the
`assignsubmission` suffix are reattached verbatim. -/
def anonymizeMoodleSubmission (κ : Str → Int) (maxTok : Int)
    (By : Str → List (Str × List Str)) (σ : List Str → List Str)
    (st : AnonState) (filename : Str) :
    Option ((Str × List (Str × Str)) × AnonState) :=
  match moodleMatch filename with
  | none => some ((filename, []), st)
  | some (namePart, idPart, suffixPart) =>
    match anonymizeData κ maxTok By σ st namePart with
    | none => none
    | some (anonymizedName, mappings, st1) =>
      let (anonymizedName, mappings, st2) :=
        if anonymizedName = namePart then
          match lookupA st1.memory namePart with
          | none =>
            let n := ctrGet st1.counters (strOf "PERSON") + 1
            let tag := strOf "REDACTED_PERSON" ++ strOf (toString n)
            (tag, [(tag, namePart)],
             AnonState.mk (dictSet st1.counters (strOf "PERSON") n)
               (st1.memory ++ [(namePart, tag)]))
          | some tag => (tag, [(tag, namePart)], st1)
        else (anonymizedName, mappings, st1)
      let finalName := pyStrip anonymizedName
      some ((finalName ++ '_' :: idPart ++ '_' :: suffixPart, mappings), st2)

/-- `Path(name).suffix` (CPython:
`i = name.rfind('.'); name[i:] if 0 < i < len(name) - 1 else ''`,
for a single-component filename, which is what the walker passes). -/
def pathSuffix (name : Str) : Str :=
  match (name.reverse.takeWhile (· ≠ '.')).length, name.reverse.contains '.' with
  | _, false => []
  | tailLen, true =>
    let i := name.length - 1 - tailLen
    if 0 < i ∧ i < name.length - 1 then name.drop i else []

/-- `Path(name).suffixes` (CPython: `[]` if the name ends with `.`;
otherwise split the dot-stripped name on `.` and prefix each tail
fragment with `.`). -/
def pathSuffixes (name : Str) : List Str :=
  if name ≠ [] ∧ name.getLast? = some '.' then []
  else
    ((splitOnChar '.' (name.dropWhile (· = '.'))).tail).map (fun s => '.' :: s)

/-- `DirectoryAnonymizer.anonymize_filename(filename, is_directory)`. -/
def anonymizeFilename (κ : Str → Int) (maxTok : Int)
    (By : Str → List (Str × List Str)) (σ : List Str → List Str)
    (st : AnonState) (filename : Str) (isDirectory : Bool) :
    Option ((Str × List (Str × Str)) × AnonState) :=
  if filename = strOf "moodle_grades.csv" then some ((filename, []), st)
  else if isMoodleSubmission filename then
    anonymizeMoodleSubmission κ maxTok By σ st filename
  else
    let (ext, baseName) :=
      if ¬ isDirectory ∧ pathSuffix filename ≠ [] then
        let ext := (pathSuffixes filename).flatten
        (ext, pyReplace filename ext [])
      else ([], filename)
    match anonymizeData κ maxTok By σ st baseName with
    | none => none
    | some (anonymizedBase, mappings, st') =>
      let anonymizedFilename := pyStrip anonymizedBase
      let anonymizedFilename :=
        if ext ≠ [] then anonymizedFilename ++ ext else anonymizedFilename
      some ((anonymizedFilename, mappings), st')

/-- The `statistics` block of the unified mapping. -/
structure DirStats where
  totalFiles : Nat
  processedFiles : Nat
  skippedFiles : Nat
  errors : List (Str × Str)
deriving DecidableEq, Repr

/-- `self.all_mappings`: unified token mapping plus statistics. -/
structure DirMappings where
  mappings : List (Str × Str)
  statistics : DirStats
deriving DecidableEq, Repr

/-- Filesystem effects of a directory run (content writes and the final
`json.dump` of the unified mapping). -/
inductive FsAction where
  | writeFile (relPath : Str) (content : Str)
  | writeMappingFile (content : DirMappings)
deriving DecidableEq, Repr

/-- The per-file loop of `DirectoryAnonymizer.process_directory`, over
the gathered files.  `anonymize_one_file` (path anonymization, content
anonymization, output write, mapping merge) is modelled as an oracle
returning either an error message (any raised exception) or the output
path, anonymized content and the file's token mappings; on success the
mappings are merged (`dict.update`) and `processed_files` is bumped, on
failure the error is recorded with the file path and the file counts as
skipped.  After the loop the unified mapping is written
unconditionally. -/
def procStep (procOne : Str → Except Str (Str × Str × List (Str × Str)))
    (acc : DirMappings × List FsAction) (f : Str) : DirMappings × List FsAction :=
  match procOne f with
  | .ok (outPath, content, ms) =>
    (⟨ms.foldl (fun m p => dictSet m p.1 p.2) acc.1.mappings,
      { acc.1.statistics with
        processedFiles := acc.1.statistics.processedFiles + 1 }⟩,
     acc.2 ++ [.writeFile outPath content])
  | .error e =>
    (⟨acc.1.mappings,
      { acc.1.statistics with
        errors := acc.1.statistics.errors ++ [(f, e)],
        skippedFiles := acc.1.statistics.skippedFiles + 1 }⟩,
     acc.2)

def processDirectory (files : List Str)
    (procOne : Str → Except Str (Str × Str × List (Str × Str))) :
    DirMappings × List FsAction :=
  let init : DirMappings × List FsAction :=
    (⟨[], ⟨files.length, 0, 0, []⟩⟩, [])
  let run := files.foldl (procStep procOne) init
  (run.1, run.2 ++ [.writeMappingFile run.1])

/-! ## `LocalDeanonymizer` — `src/mira/libs/local_anonymizer/deanonymizer.py` -/

/-- `LocalDeanonymizer.deanonymize(text, mappings)`: replace every
token with its original, in dict insertion order. -/
def deanonymize (text : Str) (mappings : List (Str × Str)) : Str :=
  if text = [] ∨ mappings = [] then text
  else mappings.foldl (fun t p => pyReplace t p.1 p.2) text

/-! ## A verified theory of literal string replacement

Python's `str.replace` is greedy, leftmost and non-overlapping; the
rest of the file proves the replacement algebra needed for the
round-trip, ordering and stability claims: when does one replacement
invert another, and when do two replacements commute. -/

/-- Some proper, non-empty suffix of `x` is a prefix of `y` (so an
occurrence of `x` immediately followed by other text could spill into
an occurrence of `y`). -/
def OvSP (x y : Str) : Prop := ∃ i, 0 < i ∧ i < x.length ∧ x.drop i <+: y

/-- `x` and `y` are separated: neither is a substring of the other
(equal strings included) and neither overlaps the other across a
boundary.  Occurrences of separated strings are always disjoint, and
inserting one cannot create or destroy occurrences of the other. -/
def Sep (x y : Str) : Prop :=
  ¬ x <:+: y ∧ ¬ y <:+: x ∧ ¬ OvSP x y ∧ ¬ OvSP y x

/-- `t` is unbordered: no proper, non-empty suffix of `t` is also a
prefix of `t`, so occurrences of `t` cannot overlap each other. -/
def Unbordered (t : Str) : Prop := ¬ OvSP t t

instance (x y : Str) : Decidable (OvSP x y) := by
  refine decidable_of_iff
    ((List.range x.length).any fun i => decide (0 < i) && decide (x.drop i <+: y)) ?iff
  simp only [List.any_eq_true, List.mem_range, Bool.and_eq_true, decide_eq_true_eq]
  exact ⟨fun ⟨i, hi, h0, hp⟩ => ⟨i, h0, hi, hp⟩, fun ⟨i, h0, hi, hp⟩ => ⟨i, hi, h0, hp⟩⟩

instance (x y : Str) : Decidable (Sep x y) := by unfold Sep; infer_instance

instance (t : Str) : Decidable (Unbordered t) := by unfold Unbordered; infer_instance

theorem Sep.symm {x y : Str} (h : Sep x y) : Sep y x :=
  ⟨h.2.1, h.1, h.2.2.2, h.2.2.1⟩

/-! ### Unfolding equations of `repl` -/

theorem repl_nil (pat rep : Str) : repl pat rep [] = [] := rfl

theorem repl_pos {pat : Str} (rep : Str) {c : Char} {s : Str}
    (h1 : pat ≠ []) (h2 : pat <+: (c :: s)) :
    repl pat rep (c :: s) = rep ++ repl pat rep ((c :: s).drop pat.length) := by
  show replGo pat rep (s.length + 1) (c :: s) = _
  rw [replGo, if_pos ⟨h1, h2⟩, repl]
  have hpl : 1 ≤ pat.length := List.length_pos.mpr h1
  rw [replGo_fuel pat rep s.length _ ((c :: s).drop pat.length).length
    (by simp; omega) le_rfl]

theorem repl_neg {pat : Str} (rep : Str) {c : Char} {s : Str}
    (h : ¬ (pat ≠ [] ∧ pat <+: (c :: s))) :
    repl pat rep (c :: s) = c :: repl pat rep s := by
  show replGo pat rep (s.length + 1) (c :: s) = _
  rw [replGo, if_neg h]
  rfl

/-- `repl` on an empty pattern is the identity (Python's
`str.replace` with an empty pattern behaves differently and is handled
by `pyReplace` directly). -/
theorem repl_empty_pat (rep : Str) : ∀ s, repl [] rep s = s
  | [] => repl_nil _ _
  | c :: s => by
    rw [repl_neg rep (by simp)]
    exact congrArg (c :: ·) (repl_empty_pat rep s)

theorem pyReplace_eq_repl {pat : Str} (s rep : Str) (h : pat ≠ []) :
    pyReplace s pat rep = repl pat rep s := by
  rw [pyReplace, if_neg h]

/-- Greedy head match: replacing `pat` in `pat ++ s` fires at once. -/
theorem repl_append_pat {pat : Str} (rep s : Str) (h : pat ≠ []) :
    repl pat rep (pat ++ s) = rep ++ repl pat rep s := by
  match pat, h with
  | p :: pt, _ =>
    rw [List.cons_append, repl_pos rep (by simp) (by simpa using List.prefix_append _ s)]
    simp

/-- If the pattern occurs nowhere, `repl` is the identity. -/
theorem repl_not_occurs {pat rep : Str} : ∀ {s}, ¬ pat <:+: s → repl pat rep s = s
  | [], _ => repl_nil _ _
  | c :: s, h => by
    have hne : ¬ (pat ≠ [] ∧ pat <+: (c :: s)) := by
      rintro ⟨-, hp⟩
      exact h hp.isInfix
    rw [repl_neg rep hne]
    exact congrArg (c :: ·) (repl_not_occurs fun hi => h (List.infix_cons hi))

/-- If no match starts within the first `k` characters, `repl` keeps
them verbatim. -/
theorem repl_skip {pat rep : Str} :
    ∀ (k : Nat) (s : Str), (∀ i, i < k → ¬ pat <+: s.drop i) →
      repl pat rep s = s.take k ++ repl pat rep (s.drop k)
  | 0, s, _ => by simp
  | k + 1, [], _ => by simp
  | k + 1, c :: s, h => by
    have h0 : ¬ (pat ≠ [] ∧ pat <+: (c :: s)) := by
      rintro ⟨-, hp⟩
      exact h 0 (Nat.succ_pos k) hp
    rw [repl_neg rep h0, List.take_succ_cons, List.drop_succ_cons,
      repl_skip k s (fun i hi => h (i + 1) (by omega)), List.cons_append]

/-! ### Prefix bookkeeping -/

theorem prefix_append_of_length_le {u v w : Str} (h : u <+: v ++ w)
    (hl : u.length ≤ v.length) : u <+: v :=
  List.prefix_of_prefix_length_le h (List.prefix_append v w) hl

theorem append_prefix_of_length_le {u v w : Str} (h : u <+: v ++ w)
    (hl : v.length ≤ u.length) : v <+: u :=
  List.prefix_of_prefix_length_le (List.prefix_append v w) h hl

theorem infix_of_prefix_drop {c s : Str} {i : Nat} (h : c <+: s.drop i) :
    c <:+: s :=
  h.isInfix.trans (List.drop_suffix i s).isInfix

/-- A prefix of the suffix `x.drop i` of length at most
`x.length - i` is an infix of `x`. -/
theorem infix_of_prefix_within {c x s : Str} {i : Nat} (hx : x <+: s)
    (hc : c <+: s.drop i) (hl : c.length ≤ x.length - i) : c <:+: x := by
  have hdx : x.drop i <+: s.drop i := by
    rw [List.prefix_iff_eq_take.mp hx, List.drop_take]
    exact List.take_prefix _ _
  have : c <+: x.drop i :=
    List.prefix_of_prefix_length_le hc hdx (by simp [hl])
  exact infix_of_prefix_drop this

/-- Conversely, when the candidate is at least as long as what is left
of `x`, the rest of `x` is a prefix of the candidate. -/
theorem drop_prefix_of_prefix_ge {c x s : Str} {i : Nat} (hx : x <+: s)
    (hc : c <+: s.drop i) (hl : x.length - i ≤ c.length) : x.drop i <+: c := by
  have hdx : x.drop i <+: s.drop i := by
    rw [List.prefix_iff_eq_take.mp hx, List.drop_take]
    exact List.take_prefix _ _
  exact List.prefix_of_prefix_length_le hdx hc (by simp [hl])

/-! ### Transfer: a match in the replaced string was already there

Replacing `C` by `D` cannot create a match of a pattern separated from
`D`: any (partial) match of `A` at the front of `repl C D s` was
already at the front of `s`. -/

theorem prefix_transfer {C D A : Str} (hAD : Sep A D) :
    ∀ (s : Str) (j : Nat), j < A.length →
      A.drop j <+: repl C D s → A.drop j <+: s := by
  intro s
  induction s with
  | nil =>
    intro j hj h
    rw [repl_nil] at h
    have := h.length_le
    simp at this
    omega
  | cons c s' ih =>
    intro j hj h
    by_cases hc : C ≠ [] ∧ C <+: (c :: s')
    · rw [repl_pos D hc.1 hc.2] at h
      rcases le_or_lt (A.drop j).length D.length with hle | hlt
      · have hpD : A.drop j <+: D := prefix_append_of_length_le h hle
        rcases Nat.eq_zero_or_pos j with rfl | hj0
        · exact absurd (List.IsPrefix.isInfix (by simpa using hpD)) hAD.1
        · exact absurd ⟨j, hj0, hj, hpD⟩ hAD.2.2.1
      · have hD : D <+: A.drop j := append_prefix_of_length_le h (Nat.le_of_lt hlt)
        exact absurd (infix_of_prefix_drop hD) hAD.2.1
    · rw [repl_neg D hc] at h
      rw [List.drop_eq_getElem_cons hj] at h ⊢
      obtain ⟨rfl, h2⟩ := List.cons_prefix_cons.mp h
      by_cases hj1 : j + 1 < A.length
      · exact List.cons_prefix_cons.mpr ⟨rfl, ih (j + 1) hj1 h2⟩
      · have : A.drop (j + 1) = [] := List.drop_eq_nil_of_le (by omega)
        rw [this]
        exact List.cons_prefix_cons.mpr ⟨rfl, List.nil_prefix⟩

/-- Replacing `e` by an unbordered `t` in a `t`-free string cannot
create a partial match of `t` starting strictly inside other
material. -/
theorem self_transfer {e t : Str} (hU : Unbordered t) :
    ∀ (s : Str) (j : Nat), 0 < j → j < t.length →
      t.drop j <+: repl e t s → t.drop j <+: s := by
  intro s
  induction s with
  | nil =>
    intro j _ hj h
    rw [repl_nil] at h
    have := h.length_le
    simp at this
    omega
  | cons c s' ih =>
    intro j hj0 hj h
    by_cases hc : e ≠ [] ∧ e <+: (c :: s')
    · rw [repl_pos t hc.1 hc.2] at h
      have hpT : t.drop j <+: t :=
        prefix_append_of_length_le h (by simp)
      exact absurd ⟨j, hj0, hj, hpT⟩ hU
    · rw [repl_neg t hc] at h
      rw [List.drop_eq_getElem_cons hj] at h ⊢
      obtain ⟨rfl, h2⟩ := List.cons_prefix_cons.mp h
      by_cases hj1 : j + 1 < t.length
      · exact List.cons_prefix_cons.mpr ⟨rfl, ih (j + 1) (by omega) hj1 h2⟩
      · have : t.drop (j + 1) = [] := List.drop_eq_nil_of_le (by omega)
        rw [this]
        exact List.cons_prefix_cons.mpr ⟨rfl, List.nil_prefix⟩

/-! ### Round trip of a single replacement -/

theorem not_infix_drop {t s : Str} (k : Nat) (h : ¬ t <:+: s) :
    ¬ t <:+: s.drop k :=
  fun hi => h (hi.trans (List.drop_suffix k s).isInfix)

theorem not_infix_tail {t : Str} {c : Char} {s : Str} (h : ¬ t <:+: (c :: s)) :
    ¬ t <:+: s :=
  fun hi => h (List.infix_cons hi)

/-- Replacing `e` by `t` and then `t` by `e` restores the original,
provided `t` is unbordered and did not occur beforehand. -/
theorem repl_roundtrip {e t : Str} (ht : t ≠ []) (hU : Unbordered t) :
    ∀ s, ¬ t <:+: s → repl t e (repl e t s) = s := by
  suffices main : ∀ (n : Nat) (s : Str), s.length ≤ n → ¬ t <:+: s →
      repl t e (repl e t s) = s by
    exact fun s => main s.length s le_rfl
  intro n
  induction n with
  | zero =>
    intro s hs _
    match s, hs with
    | [], _ => rw [repl_nil, repl_nil]
  | succ n ih =>
    intro s hs hocc
    match s with
    | [] => rw [repl_nil, repl_nil]
    | c :: s' =>
      by_cases hc : e ≠ [] ∧ e <+: (c :: s')
      · have he1 : 1 ≤ e.length := List.length_pos.mpr hc.1
        rw [repl_pos t hc.1 hc.2, repl_append_pat e _ ht,
          ih _ (by simp at hs ⊢; omega) (not_infix_drop _ hocc)]
        exact List.prefix_iff_eq_append.mp hc.2
      · rw [repl_neg t hc]
        have hnp : ¬ (t ≠ [] ∧ t <+: (c :: repl e t s')) := by
          rintro ⟨-, hp⟩
          rcases t with - | ⟨a, t'⟩
          · exact ht rfl
          · obtain ⟨rfl, hp2⟩ := List.cons_prefix_cons.mp hp
            rcases eq_or_ne t' [] with rfl | ht'
            · exact hocc (List.IsPrefix.isInfix
                (List.cons_prefix_cons.mpr ⟨rfl, List.nil_prefix⟩))
            · have h1 : (a :: t').drop 1 <+: repl e (a :: t') s' := by simpa using hp2
              have h2 := self_transfer hU s' 1 Nat.one_pos
                (by simpa using List.length_pos.mpr ht') h1
              exact hocc (List.IsPrefix.isInfix
                (List.cons_prefix_cons.mpr ⟨rfl, by simpa using h2⟩))
        rw [repl_neg e hnp]
        exact congrArg (c :: ·) (ih s' (by simp at hs ⊢; omega) (not_infix_tail hocc))

/-! ### Commutation of independent replacements -/

/-- Both of two separated patterns cannot be prefixes of the same
string. -/
theorem not_prefix_of_prefix_sep {A C s : Str} (hAC : Sep A C)
    (hA : A <+: s) : ¬ C <+: s := by
  intro hCp
  rcases le_or_lt A.length C.length with hle | hlt
  · exact hAC.1 (List.prefix_of_prefix_length_le hA hCp hle).isInfix
  · exact hAC.2.1 (List.prefix_of_prefix_length_le hCp hA (Nat.le_of_lt hlt)).isInfix

/-- No occurrence of `C` starts inside the `A`-occurrence at the front
of `s`. -/
theorem no_match_in_front {A C s : Str} (hAC : Sep A C) (hA : A <+: s)
    (hnc : ¬ C <+: s) : ∀ i, i < A.length → ¬ C <+: s.drop i := by
  intro i hi hCp
  rcases Nat.eq_zero_or_pos i with rfl | hi0
  · exact hnc (by simpa using hCp)
  · rcases le_or_lt C.length (A.length - i) with hle | hlt
    · exact hAC.2.1 (infix_of_prefix_within hA hCp hle)
    · exact hAC.2.2.1 ⟨i, hi0, hi, drop_prefix_of_prefix_ge hA hCp (Nat.le_of_lt hlt)⟩

/-- No occurrence of `C` starts inside an inserted copy of `B`
(whatever follows it). -/
theorem no_match_in_inserted {B C : Str} (h1 : ¬ C <:+: B) (h2 : ¬ B <:+: C)
    (h3 : ¬ OvSP B C) (V : Str) :
    ∀ i, i < B.length → ¬ C <+: (B ++ V).drop i := by
  intro i hi hCp
  rw [List.drop_append_eq_append_drop, Nat.sub_eq_zero_of_le (Nat.le_of_lt hi),
    List.drop_zero] at hCp
  rcases le_or_lt C.length (B.drop i).length with hle | hlt
  · exact h1 (infix_of_prefix_drop (prefix_append_of_length_le hCp hle))
  · have hBdrop : B.drop i <+: C := append_prefix_of_length_le hCp (Nat.le_of_lt hlt)
    rcases Nat.eq_zero_or_pos i with rfl | hi0
    · exact h2 (List.IsPrefix.isInfix (by simpa using hBdrop))
    · exact h3 ⟨i, hi0, hi, hBdrop⟩

/-- Independent replacements commute: replacing `A` by `B` and `C` by
`D` can be done in either order when `A`/`C`, `A`/`D` and `C`/`B` are
separated. -/
theorem repl_comm {A B C D : Str} (hA : A ≠ []) (hC : C ≠ [])
    (hAC : Sep A C) (hAD : Sep A D) (hCB : Sep C B) :
    ∀ s, repl A B (repl C D s) = repl C D (repl A B s) := by
  suffices main : ∀ (n : Nat) (s : Str), s.length ≤ n →
      repl A B (repl C D s) = repl C D (repl A B s) by
    exact fun s => main s.length s le_rfl
  intro n
  induction n with
  | zero =>
    intro s hs
    match s, hs with
    | [], _ => simp [repl_nil]
  | succ n ih =>
    intro s hs
    match s with
    | [] => simp [repl_nil]
    | c :: s' =>
      have hA1 : 1 ≤ A.length := List.length_pos.mpr hA
      have hC1 : 1 ≤ C.length := List.length_pos.mpr hC
      by_cases hAp : A <+: (c :: s')
      · have hnc : ¬ C <+: (c :: s') := not_prefix_of_prefix_sep hAC hAp
        have hCDs : repl C D (c :: s') =
            A ++ repl C D ((c :: s').drop A.length) := by
          rw [repl_skip A.length _ (no_match_in_front hAC hAp hnc),
            ← List.prefix_iff_eq_take.mp hAp]
        rw [hCDs, repl_append_pat B _ hA, repl_pos B hA hAp]
        have hskip2 := no_match_in_inserted hCB.1 hCB.2.1 hCB.2.2.2
          (repl A B ((c :: s').drop A.length))
        rw [repl_skip B.length _ hskip2, List.take_left, List.drop_left]
        exact congrArg (B ++ ·) (ih _ (by simp at hs ⊢; omega))
      · by_cases hCp : C <+: (c :: s')
        · have hnA : ¬ A <+: (c :: s') := hAp
          have hABs : repl A B (c :: s') =
              C ++ repl A B ((c :: s').drop C.length) := by
            rw [repl_skip C.length _ (no_match_in_front hAC.symm hCp hnA),
              ← List.prefix_iff_eq_take.mp hCp]
          rw [repl_pos D hC hCp, hABs, repl_append_pat D _ hC]
          have hskip2 := no_match_in_inserted hAD.1 hAD.2.1 hAD.2.2.2
            (repl C D ((c :: s').drop C.length))
          rw [repl_skip D.length _ hskip2, List.take_left, List.drop_left]
          exact congrArg (D ++ ·) (ih _ (by simp at hs ⊢; omega))
        · rw [repl_neg D (fun h => hCp h.2), repl_neg B (fun h => hAp h.2)]
          have hL : ¬ (A ≠ [] ∧ A <+: (c :: repl C D s')) := by
            rintro ⟨-, hp⟩
            rcases hAe : A with - | ⟨a, A'⟩
            · exact hA hAe
            · rw [hAe] at hp
              obtain ⟨rfl, hp2⟩ := List.cons_prefix_cons.mp hp
              rcases eq_or_ne A' [] with rfl | hA'
              · exact hAp (hAe ▸ List.cons_prefix_cons.mpr ⟨rfl, List.nil_prefix⟩)
              · have h1 : A.drop 1 <+: repl C D s' := by rw [hAe]; simpa using hp2
                have h2 := prefix_transfer hAD s' 1
                  (by rw [hAe]; simp [List.length_pos.mpr hA']) h1
                rw [hAe] at h2
                exact hAp (hAe ▸ List.cons_prefix_cons.mpr ⟨rfl, by simpa using h2⟩)
          have hR : ¬ (C ≠ [] ∧ C <+: (c :: repl A B s')) := by
            rintro ⟨-, hp⟩
            rcases hCe : C with - | ⟨a, C'⟩
            · exact hC hCe
            · rw [hCe] at hp
              obtain ⟨rfl, hp2⟩ := List.cons_prefix_cons.mp hp
              rcases eq_or_ne C' [] with rfl | hC'
              · exact hCp (hCe ▸ List.cons_prefix_cons.mpr ⟨rfl, List.nil_prefix⟩)
              · have h1 : C.drop 1 <+: repl A B s' := by rw [hCe]; simpa using hp2
                have h2 := prefix_transfer hCB s' 1
                  (by rw [hCe]; simp [List.length_pos.mpr hC']) h1
                rw [hCe] at h2
                exact hCp (hCe ▸ List.cons_prefix_cons.mpr ⟨rfl, by simpa using h2⟩)
          rw [repl_neg B hL, repl_neg D hR]
          exact congrArg (c :: ·) (ih s' (by simp at hs ⊢; omega))

/-! ### Round trip of the full substitution pipeline -/

/-- The fold inside `deanonymize` (without its emptiness guard). -/
def deanonFold (mappings : List (Str × Str)) (text : Str) : Str :=
  mappings.foldl (fun t p => pyReplace t p.1 p.2) text

theorem deanonFold_append_single (m : List (Str × Str)) (p : Str × Str)
    (t : Str) : deanonFold (m ++ [p]) t = pyReplace (deanonFold m t) p.1 p.2 := by
  unfold deanonFold
  rw [List.foldl_append]
  rfl

/-- Conditions on one fired `(entity, token)` substitution: non-empty
strings, an unbordered token, and a token that does not occur in the
round-trip target. -/
def BundleElem (T₀ : Str) (p : Str × Str) : Prop :=
  p.1 ≠ [] ∧ p.2 ≠ [] ∧ Unbordered p.2 ∧ ¬ p.2 <:+: T₀

/-- Conditions between an earlier fired pair `p` and a later fired
pair `q` (both as `(entity, token)`): the earlier token is separated
from the later entity and token, and the two entities are separated. -/
def BundlePair (p q : Str × Str) : Prop :=
  Sep p.2 q.1 ∧ Sep p.2 q.2 ∧ Sep p.1 q.1

/-- All round-trip side conditions over a list of fired
`(entity, token)` pairs. -/
def Bundle (l : List (Str × Str)) (T₀ : Str) : Prop :=
  (∀ p ∈ l, BundleElem T₀ p) ∧ l.Pairwise BundlePair

instance (T₀ : Str) (p : Str × Str) : Decidable (BundleElem T₀ p) := by
  unfold BundleElem; infer_instance

instance (p q : Str × Str) : Decidable (BundlePair p q) := by
  unfold BundlePair; infer_instance

instance (l : List (Str × Str)) (T₀ : Str) : Decidable (Bundle l T₀) := by
  unfold Bundle; infer_instance

/-- Applying earlier replacements (tokens back to entities) commutes
with a later, separated substitution (entity to token). -/
theorem deanonFold_comm {e t : Str} (he : e ≠ [])
    (m : List (Str × Str))
    (hm : ∀ p ∈ m, p.1 ≠ [] ∧ Sep p.1 e ∧ Sep p.1 t ∧ Sep e p.2) :
    ∀ x, deanonFold m (pyReplace x e t) = pyReplace (deanonFold m x) e t := by
  induction m with
  | nil => intro x; rfl
  | cons p m' ih =>
    intro x
    obtain ⟨hp1, hpe, hpt, hep⟩ := hm p (List.mem_cons_self p m')
    have step : pyReplace (pyReplace x e t) p.1 p.2 =
        pyReplace (pyReplace x p.1 p.2) e t := by
      rw [pyReplace_eq_repl _ _ he, pyReplace_eq_repl _ _ hp1,
        pyReplace_eq_repl _ _ hp1, pyReplace_eq_repl _ _ he]
      exact repl_comm hp1 he hpe hpt hep x
    show deanonFold m' (pyReplace (pyReplace x e t) p.1 p.2) =
      pyReplace (deanonFold m' (pyReplace x p.1 p.2)) e t
    rw [step, ih (fun q hq => hm q (List.mem_cons_of_mem p hq))]

theorem lookupA_eq_none_iff {α : Type} (m : List (Str × α)) (k : Str) :
    lookupA m k = none ↔ ∀ p ∈ m, p.1 ≠ k := by
  unfold lookupA
  rw [Option.map_eq_none', List.find?_eq_none]
  simp only [decide_eq_true_eq, ne_eq]

theorem dictSet_eq_append {α : Type} {m : List (Str × α)} {k : Str}
    (v : α) (h : ∀ p ∈ m, p.1 ≠ k) : dictSet m k v = m ++ [(k, v)] := by
  rw [dictSet, if_neg]
  rw [(lookupA_eq_none_iff m k).mpr h]
  simp

/-- **Main round-trip lemma.**  Running the substitution loop from an
already-partially-deanonymizable state and then applying the
deanonymization fold restores the round-trip target, provided the
fired trace satisfies the side conditions. -/
theorem procPairs_roundtrip :
    ∀ (pairs : List (Str × Str)) (st : AnonState) (T : Str)
      (M₀ : List (Str × Str)) (T₀ : Str),
      deanonFold M₀ T = T₀ →
      Bundle (M₀.map (fun p => (p.2, p.1)) ++ procTrace st T pairs) T₀ →
      (M₀.map Prod.fst ++ (procTrace st T pairs).map Prod.snd).Nodup →
      deanonFold (procPairs st T M₀ pairs).2.1 (procPairs st T M₀ pairs).1 = T₀ := by
  intro pairs
  induction pairs with
  | nil =>
    intro st T M₀ T₀ h0 _ _
    simpa [procPairs] using h0
  | cons pr rest ih =>
    intro st T M₀ T₀ h0 hB hN
    obtain ⟨category, entity⟩ := pr
    by_cases hin : pyIn entity T = true
    · -- the pair fires
      rcases hres : resolveToken st category entity with ⟨tok, st'⟩
      have hPP : procPairs st T M₀ ((category, entity) :: rest) =
          procPairs st' (pyReplace T entity tok) (dictSet M₀ tok entity) rest := by
        simp [procPairs, hin, hres]
      have hPT : procTrace st T ((category, entity) :: rest) =
          (entity, tok) :: procTrace st' (pyReplace T entity tok) rest := by
        simp [procTrace, hin, hres]
      rw [hPT] at hB hN
      set trace' := procTrace st' (pyReplace T entity tok) rest with htr
      -- side conditions for the fired pair
      have hmemET : (entity, tok) ∈
          M₀.map (fun p => (p.2, p.1)) ++ (entity, tok) :: trace' :=
        List.mem_append_right _ (List.mem_cons_self _ _)
      obtain ⟨hE, htk, hU, hocc⟩ := hB.1 _ hmemET
      -- the token is fresh, so the dict write appends
      have hfresh : ∀ p ∈ M₀, p.1 ≠ tok := by
        intro p hp heq
        have hdisj := ((List.nodup_append).mp hN).2.2
        exact hdisj (a := tok) (heq ▸ List.mem_map_of_mem Prod.fst hp)
          (List.mem_cons_self _ _)
      have hM₀' : dictSet M₀ tok entity = M₀ ++ [(tok, entity)] :=
        dictSet_eq_append entity hfresh
      -- pairwise conditions between old mapping entries and the new pair
      have hpairM₀ : ∀ p ∈ M₀, p.1 ≠ [] ∧ Sep p.1 entity ∧ Sep p.1 tok ∧
          Sep entity p.2 := by
        intro p hp
        have hq : (p.2, p.1) ∈ M₀.map (fun p => (p.2, p.1)) :=
          List.mem_map_of_mem _ hp
        have helem := hB.1 _ (List.mem_append_left _ hq)
        have hpw := (List.pairwise_append.mp hB.2).2.2 _ hq _
          (List.mem_cons_self _ _)
        exact ⟨helem.2.1, hpw.1, hpw.2.1, hpw.2.2.symm⟩
      -- the new accumulated mapping still deanonymizes to the target
      have h0' : deanonFold (dictSet M₀ tok entity) (pyReplace T entity tok) = T₀ := by
        rw [hM₀', deanonFold_append_single,
          deanonFold_comm hE M₀ hpairM₀ T, h0,
          pyReplace_eq_repl _ _ hE, pyReplace_eq_repl _ _ htk]
        exact repl_roundtrip htk hU T₀ hocc
      -- reassociate the bundle and freshness facts for the recursion
      have hB' : Bundle ((dictSet M₀ tok entity).map (fun p => (p.2, p.1)) ++
          trace') T₀ := by
        rw [hM₀', List.map_append]
        simpa [List.append_assoc] using hB
      have hN' : ((dictSet M₀ tok entity).map Prod.fst ++
          trace'.map Prod.snd).Nodup := by
        rw [hM₀', List.map_append]
        simpa [List.append_assoc] using hN
      rw [hPP]
      exact ih st' (pyReplace T entity tok) (dictSet M₀ tok entity) T₀ h0' hB' hN'
    · -- the pair is skipped
      have hPP : procPairs st T M₀ ((category, entity) :: rest) =
          procPairs st T M₀ rest := by
        simp [procPairs, hin]
      have hPT : procTrace st T ((category, entity) :: rest) =
          procTrace st T rest := by
        simp [procTrace, hin]
      rw [hPT] at hB hN
      rw [hPP]
      exact ih st T M₀ T₀ h0 hB hN

theorem mem_dictSet {α : Type} {m : List (Str × α)} {k : Str} {v : α}
    {p : Str × α} (h : p ∈ dictSet m k v) : p = (k, v) ∨ p ∈ m := by
  unfold dictSet at h
  split at h
  · rcases List.mem_map.mp h with ⟨q, hq, hpq⟩
    by_cases hqk : q.1 = k
    · left; rw [← hpq, if_pos hqk]
    · right; rw [← hpq, if_neg hqk]; exact hq
  · rcases List.mem_append.mp h with hm | he
    · exact Or.inr hm
    · exact Or.inl (List.mem_singleton.mp he)

/-- Every entry of the final mapping is either inherited or the swap of
a fired trace pair. -/
theorem mem_procPairs_mapping :
    ∀ (pairs : List (Str × Str)) (st : AnonState) (T : Str)
      (M₀ : List (Str × Str)) (p : Str × Str),
      p ∈ (procPairs st T M₀ pairs).2.1 →
      p ∈ M₀ ∨ (p.2, p.1) ∈ procTrace st T pairs := by
  intro pairs
  induction pairs with
  | nil =>
    intro st T M₀ p hp
    exact Or.inl (by simpa [procPairs] using hp)
  | cons pr rest ih =>
    intro st T M₀ p hp
    obtain ⟨category, entity⟩ := pr
    by_cases hin : pyIn entity T = true
    · rcases hres : resolveToken st category entity with ⟨tok, st'⟩
      rw [show procPairs st T M₀ ((category, entity) :: rest) =
          procPairs st' (pyReplace T entity tok) (dictSet M₀ tok entity) rest by
        simp [procPairs, hin, hres]] at hp
      have hPT : procTrace st T ((category, entity) :: rest) =
          (entity, tok) :: procTrace st' (pyReplace T entity tok) rest := by
        simp [procTrace, hin, hres]
      rcases ih st' (pyReplace T entity tok) (dictSet M₀ tok entity) p hp with hm | ht
      · rcases mem_dictSet hm with rfl | hm'
        · exact Or.inr (by rw [hPT]; exact List.mem_cons_self _ _)
        · exact Or.inl hm'
      · exact Or.inr (by rw [hPT]; exact List.mem_cons_of_mem _ ht)
    · rw [show procPairs st T M₀ ((category, entity) :: rest) =
          procPairs st T M₀ rest by simp [procPairs, hin]] at hp
      have hPT : procTrace st T ((category, entity) :: rest) =
          procTrace st T rest := by simp [procTrace, hin]
      rw [hPT]
      exact ih st T M₀ p hp

theorem deanonFold_nil_text {m : List (Str × Str)}
    (h : ∀ p ∈ m, p.1 ≠ []) : deanonFold m [] = [] := by
  induction m with
  | nil => rfl
  | cons p m' ih =>
    show deanonFold m' (pyReplace [] p.1 p.2) = []
    rw [pyReplace_eq_repl _ _ (h p (List.mem_cons_self _ _)), repl_nil]
    exact ih (fun q hq => h q (List.mem_cons_of_mem p hq))

/-! ## Claim C1 — round-trip identity -/

/-- **C1, counterexample.**  The claim asserts the round trip
`deanonymize (anonymize T) = T` for *every* text and arbitrary backend
detections (fresh registry).  It fails when the original text already
contains a string that collides with a generated token: anonymizing
`"REDACTED_PERSON1 John"` with a backend that flags `"John"` produces
`"REDACTED_PERSON1 REDACTED_PERSON1"` with mapping
`REDACTED_PERSON1 ↦ John`, and deanonymizing that yields
`"John John"`, not the original. -/
theorem c1_counterexample :
    anonymizeData (fun s => ((splitWs s).length : Int)) 1000
        (fun _ => [(strOf "persons", [strOf "John"])]) dedupFirst
        freshState (strOf "REDACTED_PERSON1 John") =
      some (strOf "REDACTED_PERSON1 REDACTED_PERSON1",
        [(strOf "REDACTED_PERSON1", strOf "John")],
        ⟨[(strOf "PERSON", 1)], [(strOf "John", strOf "REDACTED_PERSON1")]⟩) ∧
    deanonymize (strOf "REDACTED_PERSON1 REDACTED_PERSON1")
        [(strOf "REDACTED_PERSON1", strOf "John")] ≠
      strOf "REDACTED_PERSON1 John" := by
  constructor
  · decide
  · decide

/-- **C1, amended.**  Round-trip identity holds whenever the fired
substitutions `(entity, token)` of the call satisfy the collision-
freedom conditions the source silently relies on: entities and tokens
are non-empty, every issued token is unbordered, does not occur in the
original text, and distinct fired pairs are mutually separated (no
containment or boundary overlap between an earlier token and a later
entity or token, nor between two entities), and no token is issued
twice.  The counterexample shows the unconditional claim is false; the
conditions hold in particular for ordinary prose whose entities contain
no `REDACTED_`-shaped material and at most nine tokens per tag. -/
theorem c1_round_trip_amended (κ : Str → Int) (maxTok : Int)
    (By : Str → List (Str × List Str)) (σ : List Str → List Str)
    (st : AnonState) (text anonText : Str) (m : List (Str × Str))
    (st' : AnonState)
    (hrun : anonymizeData κ maxTok By σ st text = some (anonText, m, st'))
    (hB : Bundle (anonTrace κ maxTok By σ st text) text)
    (hN : ((anonTrace κ maxTok By σ st text).map Prod.snd).Nodup) :
    deanonymize anonText m = text := by
  by_cases htext : text = []
  · subst htext
    rw [anonymizeData, if_pos rfl] at hrun
    obtain ⟨rfl, rfl, rfl⟩ : anonText = [] ∧ m = [] ∧ st' = st := by
      simpa using hrun.symm
    rfl
  · rw [anonymizeData, if_neg htext] at hrun
    cases hplan : anonPlan κ maxTok By σ text with
    | none => rw [hplan] at hrun; simp at hrun
    | some pairs =>
      rw [hplan] at hrun
      simp only [Option.map_some', Option.some.injEq] at hrun
      have htrace : anonTrace κ maxTok By σ st text = procTrace st text pairs := by
        simp [anonTrace, htext, hplan]
      rw [htrace] at hB hN
      have main := procPairs_roundtrip pairs st text [] text rfl
        (by simpa using hB) (by simpa using hN)
      have hfst : (procPairs st text [] pairs).1 = anonText := by rw [hrun]
      have hsnd : (procPairs st text [] pairs).2.1 = m := by rw [hrun]
      have hmain : deanonFold m anonText = text := by
        rw [← hfst, ← hsnd]; exact main
      have hkeys : ∀ p ∈ m, p.1 ≠ [] := by
        intro p hp
        rcases mem_procPairs_mapping pairs st text [] p
          (by rw [hsnd]; exact hp) with h0 | ht
        · simp at h0
        · exact (hB.1 _ ht).2.1
      rw [deanonymize]
      split
      · next hguard =>
        rcases hguard with hAnil | hmnil
        · rw [hAnil] at hmain
          rw [hAnil, ← hmain]
          exact (deanonFold_nil_text hkeys).symm
        · rw [hmnil] at hmain
          exact hmain
      · exact hmain

/-- **C1, witness.**  A concrete instance of the amended round trip:
backend flags `"John"` in `"hi John"`; the hypotheses are discharged by
evaluation and the round trip restores the text. -/
theorem c1_witness :
    deanonymize (strOf "hi REDACTED_PERSON1")
      [(strOf "REDACTED_PERSON1", strOf "John")] = strOf "hi John" := by
  have h := c1_round_trip_amended (fun s => ((splitWs s).length : Int)) 1000
    (fun _ => [(strOf "persons", [strOf "John"])]) dedupFirst freshState
    (strOf "hi John") (strOf "hi REDACTED_PERSON1")
    [(strOf "REDACTED_PERSON1", strOf "John")]
    ⟨[(strOf "PERSON", 1)], [(strOf "John", strOf "REDACTED_PERSON1")]⟩
    (by decide) (by decide) (by decide)
  exact h

/-! ## Claim C2 — order-insensitivity of deanonymization -/

/-- **C2, counterexample.**  The claim says any two iteration orders of
a flat mapping with session-token keys give the same output "because no
generated token is a substring of another generated token".  But the
registry generates `REDACTED_PERSON1` and `REDACTED_PERSON10` in one
session (ten persons), the former *is* a substring of the latter, and
on text `"REDACTED_PERSON10"` the two orders disagree: replacing
`REDACTED_PERSON1` first mangles the longer token. -/
theorem c2_counterexample :
    deanonymize (strOf "REDACTED_PERSON10")
        [(strOf "REDACTED_PERSON1", strOf "Ann"),
         (strOf "REDACTED_PERSON10", strOf "Bob")] ≠
      deanonymize (strOf "REDACTED_PERSON10")
        [(strOf "REDACTED_PERSON10", strOf "Bob"),
         (strOf "REDACTED_PERSON1", strOf "Ann")] ∧
    (strOf "REDACTED_PERSON1") <:+: (strOf "REDACTED_PERSON10") := by
  constructor
  · decide
  · decide

/-- Conditions between two mapping entries `(token, original)` under
which their replacements commute: the tokens are separated from each
other and each token is separated from the other entry's original. -/
def DeanonPair (p q : Str × Str) : Prop :=
  Sep p.1 q.1 ∧ Sep p.1 q.2 ∧ Sep q.1 p.2

instance (p q : Str × Str) : Decidable (DeanonPair p q) := by
  unfold DeanonPair; infer_instance

theorem DeanonPair.symmetric {p q : Str × Str} (h : DeanonPair p q) :
    DeanonPair q p :=
  ⟨h.1.symm, h.2.2, h.2.1⟩

/-- The deanonymization fold is invariant under permutations of
pairwise-commuting mappings. -/
theorem deanonFold_perm :
    ∀ {m₁ m₂ : List (Str × Str)}, m₁.Perm m₂ →
      (∀ p ∈ m₁, p.1 ≠ []) → m₁.Pairwise DeanonPair →
      ∀ t, deanonFold m₁ t = deanonFold m₂ t := by
  intro m₁ m₂ h
  induction h with
  | nil => intro _ _ t; rfl
  | cons x h ih =>
    intro hk hp t
    show deanonFold _ (pyReplace t x.1 x.2) = deanonFold _ (pyReplace t x.1 x.2)
    exact ih (fun p hp' => hk p (List.mem_cons_of_mem x hp'))
      (List.Pairwise.sublist (List.sublist_cons_self x _) hp) _
  | swap x y l =>
    intro hk hp t
    show deanonFold l (pyReplace (pyReplace t y.1 y.2) x.1 x.2) =
      deanonFold l (pyReplace (pyReplace t x.1 x.2) y.1 y.2)
    congr 1
    have hx : x.1 ≠ [] := hk x (List.mem_cons_of_mem y (List.mem_cons_self _ _))
    have hy : y.1 ≠ [] := hk y (List.mem_cons_self _ _)
    have hyx : DeanonPair y x :=
      (List.pairwise_cons.mp hp).1 x (List.mem_cons_self _ _)
    rw [pyReplace_eq_repl _ _ hy, pyReplace_eq_repl _ _ hx,
      pyReplace_eq_repl _ _ hx, pyReplace_eq_repl _ _ hy]
    exact repl_comm hx hy hyx.1.symm hyx.2.2 hyx.2.1 t
  | trans h₁ h₂ ih₁ ih₂ =>
    intro hk hp t
    rw [ih₁ hk hp t,
      ih₂ (fun p hp' => hk p (h₁.mem_iff.mpr hp'))
        ((h₁.pairwise_iff (fun h => h.symmetric)).mp hp) t]

/-- **C2, amended.**  Deanonymization is order-insensitive provided the
mapping's token keys are non-empty and pairwise separated (no key a
substring of another — which rules out `PERSON1` vs `PERSON10` — and no
key contained in or overlapping another entry's original value).  The
counterexample shows the substring condition cannot be dropped. -/
theorem c2_order_insensitive_amended (text : Str) (m₁ m₂ : List (Str × Str))
    (hperm : m₁.Perm m₂) (hkeys : ∀ p ∈ m₁, p.1 ≠ [])
    (hpair : m₁.Pairwise DeanonPair) :
    deanonymize text m₁ = deanonymize text m₂ := by
  by_cases htext : text = []
  · rw [deanonymize, deanonymize, if_pos (Or.inl htext), if_pos (Or.inl htext)]
  · by_cases hm : m₁ = []
    · have hm₂ : m₂ = [] := List.Perm.eq_nil (hm ▸ hperm).symm
      rw [deanonymize, deanonymize, if_pos (Or.inr hm), if_pos (Or.inr hm₂)]
    · have hm₂ : m₂ ≠ [] := fun h => hm (List.Perm.eq_nil (h ▸ hperm))
      rw [deanonymize, deanonymize, if_neg (by simp [htext, hm]),
        if_neg (by simp [htext, hm₂])]
      exact deanonFold_perm hperm hkeys hpair text

/-- **C2, witness.**  A concrete separated mapping applied in both
orders. -/
theorem c2_witness :
    deanonymize (strOf "REDACTED_PERSON1 x REDACTED_EMAIL1")
        [(strOf "REDACTED_PERSON1", strOf "Ann"),
         (strOf "REDACTED_EMAIL1", strOf "b@c.d")] =
      deanonymize (strOf "REDACTED_PERSON1 x REDACTED_EMAIL1")
        [(strOf "REDACTED_EMAIL1", strOf "b@c.d"),
         (strOf "REDACTED_PERSON1", strOf "Ann")] :=
  c2_order_insensitive_amended (strOf "REDACTED_PERSON1 x REDACTED_EMAIL1")
    [(strOf "REDACTED_PERSON1", strOf "Ann"),
     (strOf "REDACTED_EMAIL1", strOf "b@c.d")]
    [(strOf "REDACTED_EMAIL1", strOf "b@c.d"),
     (strOf "REDACTED_PERSON1", strOf "Ann")]
    (List.Perm.swap _ _ [])
    (by decide) (by decide)

/-! ## Claim C10 — entity memory never triggers substitution by itself -/

/-- **C10.**  When the merged detection result (chunked backend
detections merged with the regex detections) contains no entity at all,
`anonymize_data` returns the text unchanged, an empty mapping, and an
untouched registry — even if `entity_memory` holds strings that occur
in the text.  (`anonPlan … = some []` says exactly that the call does
not raise and the flattened merged detection is empty.) -/
theorem c10_no_memory_trigger (κ : Str → Int) (maxTok : Int)
    (By : Str → List (Str × List Str)) (σ : List Str → List Str)
    (st : AnonState) (text : Str) (htext : text ≠ [])
    (hplan : anonPlan κ maxTok By σ text = some []) :
    anonymizeData κ maxTok By σ st text = some (text, [], st) := by
  rw [anonymizeData, if_neg htext, hplan]
  rfl

/-- **C10, witness.**  The registry remembers `"hello"`, the text is
`"hello"`, the backend reports nothing and no regex pattern matches:
the call returns the text unchanged with an empty mapping and the same
state. -/
theorem c10_witness :
    anonymizeData (fun s => ((splitWs s).length : Int)) 1000 (fun _ => [])
        dedupFirst
        ⟨[(strOf "PERSON", 1)], [(strOf "hello", strOf "REDACTED_PERSON1")]⟩
        (strOf "hello") =
      some (strOf "hello", [],
        ⟨[(strOf "PERSON", 1)], [(strOf "hello", strOf "REDACTED_PERSON1")]⟩) :=
  c10_no_memory_trigger _ _ _ _ _ _ (by decide) (by decide)

/-! ## Claim C4 — tag stability within a session -/

theorem lookupA_append_of_some {α : Type} {m : List (Str × α)} {k : Str}
    {v : α} (h : lookupA m k = some v) (xs : List (Str × α)) :
    lookupA (m ++ xs) k = some v := by
  unfold lookupA at h ⊢
  rw [List.find?_append]
  cases hf : m.find? (fun p => p.1 = k) with
  | none => rw [hf] at h; simp at h
  | some q => rw [hf] at h; simpa using h

/-- `resolveToken` never disturbs an existing memory binding. -/
theorem resolveToken_memory_mono {st : AnonState} {category entity k : Str}
    {v : Str} (h : lookupA st.memory k = some v) :
    lookupA (resolveToken st category entity).2.memory k = some v := by
  unfold resolveToken
  cases hm : lookupA st.memory entity with
  | some r => simpa using h
  | none =>
    simp only [generateReplacement]
    exact lookupA_append_of_some h _

/-- Memory bindings survive the whole substitution loop. -/
theorem procPairs_memory_mono :
    ∀ (pairs : List (Str × Str)) (st : AnonState) (T : Str)
      (M : List (Str × Str)) (k v : Str),
      lookupA st.memory k = some v →
      lookupA (procPairs st T M pairs).2.2.memory k = some v := by
  intro pairs
  induction pairs with
  | nil => intro st T M k v h; simpa [procPairs] using h
  | cons pr rest ih =>
    intro st T M k v h
    obtain ⟨category, entity⟩ := pr
    by_cases hin : pyIn entity T = true
    · rcases hres : resolveToken st category entity with ⟨tok, st'⟩
      rw [show procPairs st T M ((category, entity) :: rest) =
          procPairs st' (pyReplace T entity tok) (dictSet M tok entity) rest by
        simp [procPairs, hin, hres]]
      have := @resolveToken_memory_mono st category entity k v h
      rw [hres] at this
      exact ih st' _ _ k v this
    · rw [show procPairs st T M ((category, entity) :: rest) =
          procPairs st T M rest by simp [procPairs, hin]]
      exact ih st T M k v h

/-- Any mapping entry whose value is a remembered entity carries the
remembered token as its key. -/
theorem procPairs_mapping_value :
    ∀ (pairs : List (Str × Str)) (st : AnonState) (T : Str)
      (M₀ : List (Str × Str)) (E tok : Str),
      lookupA st.memory E = some tok →
      (∀ p ∈ M₀, p.2 = E → p.1 = tok) →
      ∀ p ∈ (procPairs st T M₀ pairs).2.1, p.2 = E → p.1 = tok := by
  intro pairs
  induction pairs with
  | nil =>
    intro st T M₀ E tok hmem hM p hp
    exact hM p (by simpa [procPairs] using hp)
  | cons pr rest ih =>
    intro st T M₀ E tok hmem hM p hp
    obtain ⟨category, entity⟩ := pr
    by_cases hin : pyIn entity T = true
    · rcases hres : resolveToken st category entity with ⟨tk, st'⟩
      rw [show procPairs st T M₀ ((category, entity) :: rest) =
          procPairs st' (pyReplace T entity tk) (dictSet M₀ tk entity) rest by
        simp [procPairs, hin, hres]] at hp
      have hmem' : lookupA st'.memory E = some tok := by
        have := @resolveToken_memory_mono st category entity E tok hmem
        rw [hres] at this
        exact this
      have hM' : ∀ q ∈ dictSet M₀ tk entity, q.2 = E → q.1 = tok := by
        intro q hq hqE
        rcases mem_dictSet hq with rfl | hq'
        · -- the freshly written entry: its value is the fired entity
          have hent : entity = E := hqE
          subst hent
          unfold resolveToken at hres
          rw [hmem] at hres
          simpa using congrArg Prod.fst hres.symm
        · exact hM q hq' hqE
      exact ih st' _ _ E tok hmem' hM' p hp
    · rw [show procPairs st T M₀ ((category, entity) :: rest) =
          procPairs st T M₀ rest by simp [procPairs, hin]] at hp
      exact ih st T M₀ E tok hmem hM p hp

/-- When every reported entity is already remembered, the loop leaves
the whole registry state untouched (memory hits neither store nor bump
counters). -/
theorem procPairs_state_id :
    ∀ (pairs : List (Str × Str)) (st : AnonState) (T : Str)
      (M : List (Str × Str)),
      (∀ p ∈ pairs, (lookupA st.memory p.2).isSome) →
      (procPairs st T M pairs).2.2 = st := by
  intro pairs
  induction pairs with
  | nil => intro st T M _; simp [procPairs]
  | cons pr rest ih =>
    intro st T M hall
    obtain ⟨category, entity⟩ := pr
    have hsome : (lookupA st.memory entity).isSome :=
      hall (category, entity) (List.mem_cons_self _ _)
    by_cases hin : pyIn entity T = true
    · cases hm : lookupA st.memory entity with
      | none => rw [hm] at hsome; simp at hsome
      | some r =>
        have hres : resolveToken st category entity = (r, st) := by
          unfold resolveToken
          rw [hm]
        rw [show procPairs st T M ((category, entity) :: rest) =
            procPairs st (pyReplace T entity r) (dictSet M r entity) rest by
          simp [procPairs, hin, hres]]
        exact ih st _ _ (fun p hp => hall p (List.mem_cons_of_mem _ hp))
    · rw [show procPairs st T M ((category, entity) :: rest) =
          procPairs st T M rest by simp [procPairs, hin]]
      exact ih st T M (fun p hp => hall p (List.mem_cons_of_mem _ hp))

/-- One `anonymize_data` call from a state that remembers `E ↦ tok`:
the binding survives and any output-mapping entry for `E` uses `tok`. -/
theorem anonRun_stable {κ : Str → Int} {maxTok : Int}
    {By : Str → List (Str × List Str)} {σ : List Str → List Str}
    {st : AnonState} {T out : Str} {m : List (Str × Str)} {st' : AnonState}
    {E tok : Str} (hmem : lookupA st.memory E = some tok)
    (hrun : anonymizeData κ maxTok By σ st T = some (out, m, st')) :
    lookupA st'.memory E = some tok ∧ (∀ p ∈ m, p.2 = E → p.1 = tok) := by
  rw [anonymizeData] at hrun
  by_cases htext : T = []
  · rw [if_pos htext] at hrun
    obtain ⟨rfl, rfl, rfl⟩ : out = T ∧ m = [] ∧ st' = st := by
      simpa using hrun.symm
    exact ⟨hmem, by simp⟩
  · rw [if_neg htext] at hrun
    cases hplan : anonPlan κ maxTok By σ T with
    | none => rw [hplan] at hrun; simp at hrun
    | some pairs =>
      rw [hplan] at hrun
      simp only [Option.map_some', Option.some.injEq] at hrun
      constructor
      · have := procPairs_memory_mono pairs st T [] E tok hmem
        rw [hrun] at this
        exact this
      · intro p hp hpE
        have := procPairs_mapping_value pairs st T [] E tok hmem (by simp)
        rw [hrun] at this
        exact this p hp hpE

/-- **C4.**  Tag stability within a session.  If the registry remembers
`E ↦ tok`, then after any further `anonymize_data` call: (1) the
binding is unchanged; (2) every mapping entry whose original is `E`
carries exactly the token `tok`; (3) if every reported entity was
already remembered, the whole registry (counters included) is
unchanged — a remembered entity never bumps a counter; and (4) any
subsequent call from the resulting state (a second text `T₂` whose
backends report `E` again) also assigns `E` exactly `tok` in its
output mapping. -/
theorem c4_tag_stability (κ : Str → Int) (maxTok : Int)
    (By : Str → List (Str × List Str)) (σ : List Str → List Str)
    (st : AnonState) (T E tok out : Str) (m : List (Str × Str))
    (st' : AnonState)
    (hmem : lookupA st.memory E = some tok)
    (hrun : anonymizeData κ maxTok By σ st T = some (out, m, st')) :
    lookupA st'.memory E = some tok ∧
    (∀ p ∈ m, p.2 = E → p.1 = tok) ∧
    ((∀ p ∈ (anonPlan κ maxTok By σ T).getD [],
        (lookupA st.memory p.2).isSome) → st' = st) ∧
    (∀ (κ₂ : Str → Int) (maxTok₂ : Int) (By₂ : Str → List (Str × List Str))
        (σ₂ : List Str → List Str) (T₂ out₂ : Str) (m₂ : List (Str × Str))
        (st₂ : AnonState),
      anonymizeData κ₂ maxTok₂ By₂ σ₂ st' T₂ = some (out₂, m₂, st₂) →
      ∀ p ∈ m₂, p.2 = E → p.1 = tok) := by
  obtain ⟨h1, h2⟩ := anonRun_stable hmem hrun
  refine ⟨h1, h2, ?state, ?second⟩
  · intro hall
    rw [anonymizeData] at hrun
    by_cases htext : T = []
    · rw [if_pos htext] at hrun
      exact (show st' = st by simpa using (congrArg (fun o => o.map (·.2.2)) hrun.symm))
    · rw [if_neg htext] at hrun
      cases hplan : anonPlan κ maxTok By σ T with
      | none => rw [hplan] at hrun; simp at hrun
      | some pairs =>
        rw [hplan] at hrun
        simp only [Option.map_some', Option.some.injEq] at hrun
        have := procPairs_state_id pairs st T [] (by
          intro p hp
          have := hall p (by rw [hplan]; simpa using hp)
          exact this)
        rw [hrun] at this
        exact this
  · intro κ₂ maxTok₂ By₂ σ₂ T₂ out₂ m₂ st₂ hrun₂
    exact (anonRun_stable h1 hrun₂).2

/-- **C4, witness.**  Registry remembers `John ↦ REDACTED_PERSON7`
(counter at 7); a call on `"hi John"` with `persons = [John]` keeps the
binding, maps `E` to the same token, leaves the state untouched, and a
second call behaves identically. -/
theorem c4_witness :
    lookupA (AnonState.memory
        ⟨[(strOf "PERSON", 7)], [(strOf "John", strOf "REDACTED_PERSON7")]⟩)
      (strOf "John") = some (strOf "REDACTED_PERSON7") ∧
    anonymizeData (fun s => ((splitWs s).length : Int)) 1000
        (fun _ => [(strOf "persons", [strOf "John"])]) dedupFirst
        ⟨[(strOf "PERSON", 7)], [(strOf "John", strOf "REDACTED_PERSON7")]⟩
        (strOf "hi John") =
      some (strOf "hi REDACTED_PERSON7",
        [(strOf "REDACTED_PERSON7", strOf "John")],
        ⟨[(strOf "PERSON", 7)], [(strOf "John", strOf "REDACTED_PERSON7")]⟩) ∧
    (∀ p ∈ [(strOf "REDACTED_PERSON7", strOf "John")],
      p.2 = strOf "John" → p.1 = strOf "REDACTED_PERSON7") := by
  refine ⟨by decide, by decide, ?_⟩
  exact (c4_tag_stability (fun s => ((splitWs s).length : Int)) 1000
    (fun _ => [(strOf "persons", [strOf "John"])]) dedupFirst
    ⟨[(strOf "PERSON", 7)], [(strOf "John", strOf "REDACTED_PERSON7")]⟩
    (strOf "hi John") (strOf "John") (strOf "REDACTED_PERSON7")
    (strOf "hi REDACTED_PERSON7")
    [(strOf "REDACTED_PERSON7", strOf "John")]
    ⟨[(strOf "PERSON", 7)], [(strOf "John", strOf "REDACTED_PERSON7")]⟩
    (by decide) (by decide)).2.1

/-! ## Claim C3 — two-run determinism -/

/-- A legitimate enumeration of Python's `set(...)`: no duplicates and
exactly the elements of the input list (the iteration *order* is
unspecified and varies with the interpreter's hash seed). -/
def SetLikeFn (σ : List Str → List Str) : Prop :=
  ∀ l, (σ l).Nodup ∧ ∀ x, x ∈ σ l ↔ x ∈ l

theorem dedupFirst_go_mem :
    ∀ (seen l : List Str) (x : Str),
      x ∈ dedupFirst.go seen l ↔ x ∈ l ∧ x ∉ seen := by
  intro seen l
  induction l generalizing seen with
  | nil => intro x; simp [dedupFirst.go]
  | cons y l ih =>
    intro x
    rw [dedupFirst.go]
    by_cases hy : y ∈ seen
    · rw [if_pos hy, ih]
      constructor
      · rintro ⟨hx, hs⟩
        exact ⟨List.mem_cons_of_mem y hx, hs⟩
      · rintro ⟨hx, hs⟩
        rcases List.mem_cons.mp hx with rfl | hx'
        · exact absurd hy hs
        · exact ⟨hx', hs⟩
    · rw [if_neg hy]
      simp only [List.mem_cons, ih, List.mem_cons]
      constructor
      · rintro (rfl | ⟨hx, hs⟩)
        · exact ⟨Or.inl rfl, hy⟩
        · exact ⟨Or.inr hx, fun h => hs (Or.inr h)⟩
      · rintro ⟨rfl | hx, hs⟩
        · exact Or.inl rfl
        · by_cases hxy : x = y
          · exact Or.inl hxy
          · exact Or.inr ⟨hx, fun h => h.elim hxy hs⟩

theorem dedupFirst_go_nodup :
    ∀ (seen l : List Str), (dedupFirst.go seen l).Nodup := by
  intro seen l
  induction l generalizing seen with
  | nil => exact List.nodup_nil
  | cons y l ih =>
    rw [dedupFirst.go]
    by_cases hy : y ∈ seen
    · rw [if_pos hy]; exact ih seen
    · rw [if_neg hy]
      refine List.nodup_cons.mpr ⟨fun hmem => ?_, ih (y :: seen)⟩
      exact ((dedupFirst_go_mem _ _ _).mp hmem).2 (List.mem_cons_self _ _)

theorem dedupFirst_mem (l : List Str) (x : Str) :
    x ∈ dedupFirst l ↔ x ∈ l := by
  rw [dedupFirst, dedupFirst_go_mem]
  simp

theorem dedupFirst_nodup (l : List Str) : (dedupFirst l).Nodup :=
  dedupFirst_go_nodup [] l

theorem setLikeFn_dedupFirst : SetLikeFn dedupFirst :=
  fun l => ⟨dedupFirst_nodup l, dedupFirst_mem l⟩

theorem setLikeFn_revDedup : SetLikeFn (fun l => (dedupFirst l).reverse) :=
  fun l => ⟨List.nodup_reverse.mpr (dedupFirst_nodup l),
    fun x => by rw [List.mem_reverse, dedupFirst_mem]⟩

/-- **C3, counterexample.**  Same text, same (fresh) registry, same
backend detections — but the regex detector stores
`list(set(matches))`, and two legitimate set-enumeration orders (both
shown set-like) produce different anonymized outputs: with two emails
in the text, the enumeration order decides which becomes
`REDACTED_EMAIL1`.  Across interpreter runs the set order varies with
the string-hash seed, so two runs need not return identical results. -/
theorem c3_counterexample :
    SetLikeFn dedupFirst ∧
    SetLikeFn (fun l => (dedupFirst l).reverse) ∧
    anonymizeData (fun s => ((splitWs s).length : Int)) 1000 (fun _ => [])
        dedupFirst freshState (strOf "a@x.com b@x.com") ≠
      anonymizeData (fun s => ((splitWs s).length : Int)) 1000 (fun _ => [])
        (fun l => (dedupFirst l).reverse) freshState (strOf "a@x.com b@x.com") :=
  ⟨setLikeFn_dedupFirst, setLikeFn_revDedup, by decide⟩

/-- **C3, amended.**  The pipeline is deterministic once the
`set`-enumeration order is fixed: two runs of `anonymize_data` on the
same text, the same registry state, the same backend detections *and*
the same set-enumeration function return identical results.  (Within
one interpreter process the enumeration of equal sets is stable, so
within-process re-runs agree; the counterexample shows the condition on
the enumeration cannot be dropped across processes.) -/
theorem c3_determinism_amended (κ : Str → Int) (maxTok : Int)
    (By : Str → List (Str × List Str)) (σ₁ σ₂ : List Str → List Str)
    (st : AnonState) (text : Str) (hσ : σ₁ = σ₂) :
    anonymizeData κ maxTok By σ₁ st text =
      anonymizeData κ maxTok By σ₂ st text := by
  rw [hσ]

/-- **C3, witness.** -/
theorem c3_witness :
    anonymizeData (fun s => ((splitWs s).length : Int)) 1000 (fun _ => [])
        dedupFirst freshState (strOf "a@x.com b@x.com") =
      anonymizeData (fun s => ((splitWs s).length : Int)) 1000 (fun _ => [])
        dedupFirst freshState (strOf "a@x.com b@x.com") :=
  c3_determinism_amended (fun s => ((splitWs s).length : Int)) 1000
    (fun _ => []) dedupFirst dedupFirst freshState (strOf "a@x.com b@x.com") rfl

/-! ## Claim C5 — the detection mergers -/

theorem lookupA_cons {α : Type} (p : Str × α) (m : List (Str × α)) (k : Str) :
    lookupA (p :: m) k = if p.1 = k then some p.2 else lookupA m k := by
  by_cases h : p.1 = k
  · rw [if_pos h]
    unfold lookupA
    rw [List.find?_cons_of_pos _ (by simpa using h)]
    rfl
  · rw [if_neg h]
    unfold lookupA
    rw [List.find?_cons_of_neg _ (by simpa using h)]

theorem lookupA_append_cases {α : Type} (m m' : List (Str × α)) (k : Str) :
    lookupA (m ++ m') k =
      match lookupA m k with
      | some v => some v
      | none => lookupA m' k := by
  unfold lookupA
  rw [List.find?_append]
  cases m.find? (fun p => p.1 = k) <;> rfl

theorem find?_of_lookupA {α : Type} {m : List (Str × α)} {k : Str} {v : α}
    (h : lookupA m k = some v) :
    m.find? (fun q => q.1 = k) = some (k, v) := by
  unfold lookupA at h
  cases hf : m.find? (fun q => q.1 = k) with
  | none => rw [hf] at h; simp at h
  | some q =>
    rw [hf] at h
    obtain ⟨q1, q2⟩ := q
    have h1 : q1 = k := by simpa using List.find?_some hf
    have h2 : q2 = v := by simpa using h
    rw [h1, h2]

/-- Lookup through a key-preserving value update at key `c`. -/
theorem lookupA_update {α : Type} (f : α → α) (c : Str) :
    ∀ (m : List (Str × α)) (k : Str),
      lookupA (m.map (fun q => if q.1 = c then (q.1, f q.2) else q)) k =
        if k = c then (lookupA m c).map f else lookupA m k := by
  intro m
  induction m with
  | nil => intro k; by_cases h : k = c <;> simp [lookupA, h]
  | cons p m ih =>
    intro k
    by_cases hpc : p.1 = c <;> by_cases hpk : p.1 = k
    · have hkc : k = c := hpk.symm.trans hpc
      simp [List.map_cons, lookupA_cons, hpc, hpk, hkc]
    · have hkc : ¬ k = c := fun h => hpk (hpc.trans h.symm)
      have hck : ¬ c = k := fun h => hkc h.symm
      simp [List.map_cons, lookupA_cons, hpc, hpk, hkc, hck, ih k]
    · have hkc : ¬ k = c := fun h => hpc (hpk.trans h)
      simp [List.map_cons, lookupA_cons, hpc, hpk, hkc]
    · by_cases hkc : k = c <;>
        simp [List.map_cons, lookupA_cons, hpc, hpk, hkc, ih k, ih c]

theorem lookupA_dictExtend (m : List (Str × List Str)) (cat : Str)
    (items : List Str) (k : Str) :
    lookupA (dictExtend m cat items) k =
      if k = cat then
        match lookupA m cat with
        | some v => some (v ++ items)
        | none => some items
      else lookupA m k := by
  unfold dictExtend
  cases hm : lookupA m cat with
  | some v =>
    have := lookupA_update (· ++ items) cat m k
    rw [hm] at this
    rw [this]
    by_cases hk : k = cat <;> simp [hk]
  | none =>
    rw [lookupA_append_cases]
    by_cases hk : k = cat
    · subst hk
      rw [hm, lookupA_cons, if_pos rfl]
      simp
    · cases hmk : lookupA m k with
      | some v => rw [if_neg hk]
      | none =>
        rw [lookupA_cons, if_neg (fun h : cat = k => hk h.symm), if_neg hk]
        rfl

/-- The flattened-entry form of `_merge_pii_results`'s collection
phase. -/
def entriesFold (acc entries : List (Str × List Str)) : List (Str × List Str) :=
  entries.foldl (fun m p => dictExtend m p.1 p.2) acc

/-- The per-category contribution of a flattened entry list, in
sequence order (the spec's "union entity lists per category, in
sequence order"). -/
def catContrib (entries : List (Str × List Str)) (cat : Str) : List Str :=
  (entries.filter (fun p => p.1 = cat)).flatMap Prod.snd

theorem mergePiiResults_eq (rs : List (List (Str × List Str))) :
    mergePiiResults rs =
      (entriesFold [] (rs.flatMap id)).map (fun p => (p.1, dedupFirst p.2)) := by
  unfold mergePiiResults
  have h : ∀ (rs : List (List (Str × List Str))) acc,
      rs.foldl (fun m r => r.foldl (fun m p => dictExtend m p.1 p.2) m) acc =
        entriesFold acc (rs.flatMap id) := by
    intro rs
    induction rs with
    | nil => intro acc; rfl
    | cons r rs ih =>
      intro acc
      rw [List.foldl_cons, ih, List.flatMap_cons]
      show entriesFold _ _ = List.foldl _ acc (id r ++ rs.flatMap id)
      rw [List.foldl_append]
      rfl
  show (List.foldl (fun m r => r.foldl (fun m p => dictExtend m p.1 p.2) m) [] rs).map
    (fun p => (p.1, dedupFirst p.2)) = _
  rw [h rs []]

theorem catContrib_cons (p : Str × List Str) (es : List (Str × List Str))
    (cat : Str) :
    catContrib (p :: es) cat =
      if p.1 = cat then p.2 ++ catContrib es cat else catContrib es cat := by
  by_cases h : p.1 = cat
  · simp [catContrib, List.filter_cons, h]
  · simp [catContrib, List.filter_cons, h]

theorem lookupA_entriesFold :
    ∀ (entries acc : List (Str × List Str)) (cat : Str),
      lookupA (entriesFold acc entries) cat =
        match lookupA acc cat with
        | some v => some (v ++ catContrib entries cat)
        | none =>
          if entries.any (fun p => p.1 = cat) then
            some (catContrib entries cat)
          else none := by
  intro entries
  induction entries with
  | nil =>
    intro acc cat
    cases h : lookupA acc cat <;> simp [entriesFold, catContrib, h]
  | cons p entries ih =>
    intro acc cat
    have hstep : entriesFold acc (p :: entries) =
        entriesFold (dictExtend acc p.1 p.2) entries := rfl
    rw [hstep, ih, lookupA_dictExtend, catContrib_cons]
    by_cases hc : cat = p.1
    · subst hc
      rw [if_pos rfl, if_pos rfl]
      cases hacc : lookupA acc p.1 with
      | some v => simp
      | none => simp [List.any_cons]
    · rw [if_neg hc, if_neg (fun h : p.1 = cat => hc h.symm)]
      cases hacc : lookupA acc cat with
      | some v => rfl
      | none =>
        have hpc : ¬ (p.1 = cat) := fun h => hc h.symm
        simp only [List.any_cons]
        by_cases hb : (entries.any fun p => decide (p.1 = cat)) = true
        · rw [if_pos hb, if_pos (by simp [hb])]
        · rw [if_neg hb, if_neg (fun h => by
            rcases (by simpa using h : p.1 = cat ∨
              (entries.any fun p => decide (p.1 = cat)) = true) with hd | hA
            · exact hpc hd
            · exact hb hA)]

theorem dedupFirst_go_sub (seen : List Str) :
    ∀ l, (∀ x ∈ l, x ∈ seen) → dedupFirst.go seen l = [] := by
  intro l
  induction l with
  | nil => intro _; rfl
  | cons y l ih =>
    intro h
    rw [dedupFirst.go, if_pos (h y (List.mem_cons_self _ _))]
    exact ih (fun x hx => h x (List.mem_cons_of_mem y hx))

theorem dedupFirst_go_append_subsumed :
    ∀ (l₁ : List Str) (seen l₂ : List Str),
      (∀ x ∈ l₂, x ∈ seen ∨ x ∈ l₁) →
      dedupFirst.go seen (l₁ ++ l₂) = dedupFirst.go seen l₁ := by
  intro l₁
  induction l₁ with
  | nil =>
    intro seen l₂ h
    rw [List.nil_append]
    exact dedupFirst_go_sub seen l₂ (fun x hx => (h x hx).resolve_right (by simp))
  | cons y l₁ ih =>
    intro seen l₂ h
    rw [List.cons_append, dedupFirst.go, dedupFirst.go]
    by_cases hy : y ∈ seen
    · rw [if_pos hy, if_pos hy]
      refine ih seen l₂ ?_
      intro x hx
      rcases h x hx with hs | hl
      · exact Or.inl hs
      · rcases List.mem_cons.mp hl with rfl | hl'
        · exact Or.inl hy
        · exact Or.inr hl'
    · rw [if_neg hy, if_neg hy]
      rw [ih (y :: seen) l₂ (fun x hx => (h x hx).elim
        (fun hs => Or.inl (List.mem_cons_of_mem y hs))
        (fun hl => (List.mem_cons.mp hl).elim
          (fun he => Or.inl (he ▸ List.mem_cons_self y seen))
          Or.inr))]

theorem dedupFirst_append_self (l : List Str) :
    dedupFirst (l ++ l) = dedupFirst l :=
  dedupFirst_go_append_subsumed l [] l (fun x hx => Or.inr hx)

theorem dedupFirst_go_idem :
    ∀ (l seen : List Str),
      dedupFirst.go seen (dedupFirst.go seen l) = dedupFirst.go seen l := by
  intro l
  induction l with
  | nil => intro seen; rfl
  | cons y l ih =>
    intro seen
    rw [dedupFirst.go]
    by_cases hy : y ∈ seen
    · rw [if_pos hy]
      exact ih seen
    · rw [if_neg hy]
      rw [dedupFirst.go, if_neg hy]
      rw [ih (y :: seen)]

theorem dedupFirst_idem (l : List Str) :
    dedupFirst (dedupFirst l) = dedupFirst l :=
  dedupFirst_go_idem l []

/-- First entry wins: in a key-`Nodup` association list every entry is
its own lookup result. -/
theorem lookupA_self_of_nodup {α : Type} :
    ∀ {m : List (Str × α)}, (m.map Prod.fst).Nodup →
      ∀ p ∈ m, lookupA m p.1 = some p.2 := by
  intro m
  induction m with
  | nil => intro _ p hp; simp at hp
  | cons q m ih =>
    intro hnd p hp
    rw [List.map_cons, List.nodup_cons] at hnd
    rcases List.mem_cons.mp hp with rfl | hp'
    · rw [lookupA_cons, if_pos rfl]
    · rw [lookupA_cons, if_neg (fun h : q.1 = p.1 =>
        hnd.1 (h ▸ List.mem_map_of_mem Prod.fst hp'))]
      exact ih hnd.2 p hp'

theorem entriesFold_fresh :
    ∀ (todo acc : List (Str × List Str)),
      ((todo.map Prod.fst).Nodup) →
      (∀ p ∈ todo, lookupA acc p.1 = none) →
      entriesFold acc todo = acc ++ todo := by
  intro todo
  induction todo with
  | nil => intro acc _ _; simp [entriesFold]
  | cons p todo ih =>
    intro acc hnd hfresh
    rw [List.map_cons, List.nodup_cons] at hnd
    have hstep : entriesFold acc (p :: todo) =
        entriesFold (dictExtend acc p.1 p.2) todo := rfl
    have hd : dictExtend acc p.1 p.2 = acc ++ [(p.1, p.2)] := by
      unfold dictExtend
      rw [hfresh p (List.mem_cons_self _ _)]
    rw [hstep, hd, ih (acc ++ [(p.1, p.2)]) hnd.2 ?fresh]
    · simp
    case fresh =>
      intro q hq
      rw [lookupA_append_cases, hfresh q (List.mem_cons_of_mem p hq),
        lookupA_cons, if_neg (fun h : p.1 = q.1 =>
          hnd.1 (h ▸ List.mem_map_of_mem Prod.fst hq))]
      rfl

theorem entriesFold_double :
    ∀ (todo acc : List (Str × List Str)),
      ((todo.map Prod.fst).Nodup) →
      (∀ p ∈ todo, lookupA acc p.1 = some p.2) →
      entriesFold acc todo = acc.map (fun q =>
        match lookupA todo q.1 with
        | some w => (q.1, q.2 ++ w)
        | none => q) := by
  intro todo
  induction todo with
  | nil =>
    intro acc _ _
    have : ∀ q ∈ acc, (match lookupA ([] : List (Str × List Str)) q.1 with
        | some w => (q.1, q.2 ++ w)
        | none => q) = q := by
      intro q _
      rfl
    rw [List.map_congr_left this]
    simp [entriesFold]
  | cons p todo ih =>
    intro acc hnd hlk
    rw [List.map_cons, List.nodup_cons] at hnd
    have hp : lookupA acc p.1 = some p.2 := hlk p (List.mem_cons_self _ _)
    have hstep : entriesFold acc (p :: todo) =
        entriesFold (dictExtend acc p.1 p.2) todo := rfl
    have hd : dictExtend acc p.1 p.2 =
        acc.map (fun q => if q.1 = p.1 then (q.1, q.2 ++ p.2) else q) := by
      unfold dictExtend
      rw [hp]
    have hnotin : lookupA todo p.1 = none :=
      (lookupA_eq_none_iff todo p.1).mpr
        (fun q hq h => hnd.1 (h ▸ List.mem_map_of_mem Prod.fst hq))
    rw [hstep, hd, ih _ hnd.2 ?hyp]
    · rw [List.map_map]
      refine List.map_congr_left ?_
      intro q hq
      by_cases hqp : q.1 = p.1
      · simp only [Function.comp_apply, if_pos hqp, lookupA_cons, if_pos hqp.symm]
        rw [show lookupA todo q.1 = none from by rw [hqp]; exact hnotin]
      · simp only [Function.comp_apply, if_neg hqp, lookupA_cons,
          if_neg (fun h : p.1 = q.1 => hqp h.symm)]
    case hyp =>
      intro q hq
      have hqp : ¬ q.1 = p.1 :=
        fun h => hnd.1 (h ▸ List.mem_map_of_mem Prod.fst hq)
      have := lookupA_update (· ++ p.2) p.1 acc q.1
      rw [if_neg hqp] at this
      rw [this]
      exact hlk q (List.mem_cons_of_mem p hq)

/-- Keys after `dictExtend`. -/
theorem map_fst_dictExtend (m : List (Str × List Str)) (cat : Str)
    (items : List Str) :
    (dictExtend m cat items).map Prod.fst =
      match lookupA m cat with
      | some _ => m.map Prod.fst
      | none => m.map Prod.fst ++ [cat] := by
  unfold dictExtend
  cases h : lookupA m cat with
  | some v =>
    rw [List.map_map]
    refine List.map_congr_left ?_
    intro q _
    by_cases hq : q.1 = cat <;> simp [hq]
  | none => simp

theorem entriesFold_keys_nodup :
    ∀ (entries acc : List (Str × List Str)),
      ((acc.map Prod.fst).Nodup) →
      (((entriesFold acc entries).map Prod.fst).Nodup) := by
  intro entries
  induction entries with
  | nil => intro acc h; exact h
  | cons p entries ih =>
    intro acc h
    have hstep : entriesFold acc (p :: entries) =
        entriesFold (dictExtend acc p.1 p.2) entries := rfl
    rw [hstep]
    refine ih _ ?_
    rw [map_fst_dictExtend]
    cases hm : lookupA acc p.1 with
    | some v => exact h
    | none =>
      rw [List.nodup_append]
      refine ⟨h, List.nodup_singleton _, ?_⟩
      intro a ha hb
      rcases List.mem_map.mp ha with ⟨q, hq, rfl⟩
      have := (lookupA_eq_none_iff acc p.1).mp hm q hq
      simp at hb
      exact this (hb ▸ rfl)

theorem mergePiiResults_keys_nodup (rs : List (List (Str × List Str))) :
    ((mergePiiResults rs).map Prod.fst).Nodup := by
  rw [mergePiiResults_eq, List.map_map]
  have : ((entriesFold [] (rs.flatMap id)).map
      ((fun p : Str × List Str => p.1) ∘ (fun p => (p.1, dedupFirst p.2)))) =
      (entriesFold [] (rs.flatMap id)).map Prod.fst := by
    refine List.map_congr_left ?_
    intro q _
    rfl
  rw [show (Prod.fst ∘ fun p : Str × List Str => (p.1, dedupFirst p.2)) =
    fun p : Str × List Str => p.1 from rfl]
  exact this ▸ entriesFold_keys_nodup _ [] (by simp)

/-- Looking up through a value-only map. -/
theorem lookupA_mapval {α β : Type} (f : α → β) :
    ∀ (m : List (Str × α)) (k : Str),
      lookupA (m.map (fun q => (q.1, f q.2))) k = (lookupA m k).map f := by
  intro m
  induction m with
  | nil => intro k; rfl
  | cons p m ih =>
    intro k
    rw [List.map_cons, lookupA_cons, lookupA_cons]
    by_cases h : p.1 = k
    · simp [h]
    · simp only [h, if_false, ih]

theorem map_fst_update {α : Type} (f : α → α) (c : Str) (m : List (Str × α)) :
    (m.map (fun q => if q.1 = c then (q.1, f q.2) else q)).map Prod.fst =
      m.map Prod.fst := by
  rw [List.map_map]
  refine List.map_congr_left ?_
  intro q _
  by_cases h : q.1 = c <;> simp [h]

theorem entriesFold_append (acc l₁ l₂ : List (Str × List Str)) :
    entriesFold acc (l₁ ++ l₂) = entriesFold (entriesFold acc l₁) l₂ := by
  unfold entriesFold
  rw [List.foldl_append]

/-- Every value stored by `_merge_pii_results` is a fixed point of the
order-preserving dedup. -/
theorem mergePiiResults_vals_fixed (rs : List (List (Str × List Str))) :
    ∀ p ∈ mergePiiResults rs, dedupFirst p.2 = p.2 := by
  intro p hp
  rw [mergePiiResults_eq] at hp
  rcases List.mem_map.mp hp with ⟨q, hq, rfl⟩
  exact dedupFirst_idem q.2

/-- `_merge_pii_results` of a merged result with itself gives it back. -/
theorem mergePiiResults_idem (rs : List (List (Str × List Str))) :
    mergePiiResults [mergePiiResults rs, mergePiiResults rs] =
      mergePiiResults rs := by
  have hnd : ((mergePiiResults rs).map Prod.fst).Nodup :=
    mergePiiResults_keys_nodup rs
  have hfix : ∀ p ∈ mergePiiResults rs, dedupFirst p.2 = p.2 :=
    mergePiiResults_vals_fixed rs
  rw [mergePiiResults_eq]
  have hflat : ([mergePiiResults rs, mergePiiResults rs] :
      List (List (Str × List Str))).flatMap id =
      mergePiiResults rs ++ mergePiiResults rs := by simp
  rw [hflat, entriesFold_append]
  have h1 : entriesFold [] (mergePiiResults rs) = mergePiiResults rs := by
    have := entriesFold_fresh (mergePiiResults rs) [] hnd (fun p _ => rfl)
    simpa using this
  rw [h1, entriesFold_double (mergePiiResults rs) (mergePiiResults rs) hnd
    (lookupA_self_of_nodup hnd)]
  have h2 : ∀ q ∈ mergePiiResults rs, (match lookupA (mergePiiResults rs) q.1 with
      | some w => (q.1, q.2 ++ w)
      | none => q) = (q.1, q.2 ++ q.2) := by
    intro q hq
    rw [lookupA_self_of_nodup hnd q hq]
  rw [List.map_congr_left h2, List.map_map]
  have h3 : ∀ q ∈ mergePiiResults rs,
      ((fun p : Str × List Str => (p.1, dedupFirst p.2)) ∘
        (fun q : Str × List Str => (q.1, q.2 ++ q.2))) q = q := by
    intro q hq
    show (q.1, dedupFirst (q.2 ++ q.2)) = q
    rw [dedupFirst_append_self, hfix q hq]
  rw [List.map_congr_left h3]
  simp

/-- `_merge_pii_data` over a key-distinct second argument whose keys
all occur in the first: every shared category gets `σ (old ++ new)`. -/
theorem mergeFold_double (σ : List Str → List Str) :
    ∀ (todo acc : List (Str × List Str)),
      ((todo.map Prod.fst).Nodup) →
      ((acc.map Prod.fst).Nodup) →
      (∀ p ∈ todo, lookupA acc p.1 ≠ none) →
      mergePiiData σ acc todo = acc.map (fun q =>
        match lookupA todo q.1 with
        | some w => (q.1, σ (q.2 ++ w))
        | none => q) := by
  intro todo
  induction todo with
  | nil =>
    intro acc _ _ _
    have h : ∀ q ∈ acc, (match lookupA ([] : List (Str × List Str)) q.1 with
        | some w => (q.1, σ (q.2 ++ w))
        | none => q) = q := fun q _ => rfl
    rw [List.map_congr_left h]
    simp [mergePiiData]
  | cons p todo ih =>
    intro acc hnd hacc hpres
    rw [List.map_cons, List.nodup_cons] at hnd
    cases hv : lookupA acc p.1 with
    | none => exact absurd hv (hpres p (List.mem_cons_self _ _))
    | some v =>
      have hstep : mergePiiData σ acc (p :: todo) =
          mergePiiData σ (acc.map (fun q =>
            if q.1 = p.1 then (q.1, σ (v ++ p.2)) else q)) todo := by
        show mergePiiData σ (match lookupA acc p.1 with
          | some existing => acc.map (fun q =>
              if q.1 = p.1 then (q.1, σ (existing ++ p.2)) else q)
          | none => acc ++ [p]) todo = _
        rw [hv]
      have hupd := lookupA_update (fun _ : List Str => σ (v ++ p.2)) p.1 acc
      rw [hstep, ih _ hnd.2 ?keys ?pres]
      · rw [List.map_map]
        refine List.map_congr_left ?_
        intro q hq
        by_cases hqp : q.1 = p.1
        · have hq2 : lookupA acc q.1 = some q.2 :=
            lookupA_self_of_nodup hacc q hq
          have hveq : v = q.2 := by
            rw [hqp] at hq2
            exact Option.some.inj (hv.symm.trans hq2)
          have htodo : lookupA todo q.1 = none :=
            (lookupA_eq_none_iff todo q.1).mpr (fun r hr h =>
              hnd.1 ((h.trans hqp) ▸ List.mem_map_of_mem Prod.fst hr))
          simp only [Function.comp_apply, if_pos hqp, lookupA_cons,
            if_pos hqp.symm]
          rw [htodo, hveq]
        · simp only [Function.comp_apply, if_neg hqp, lookupA_cons,
            if_neg (fun h : p.1 = q.1 => hqp h.symm)]
      case keys =>
        rw [map_fst_update (fun _ : List Str => σ (v ++ p.2)) p.1 acc]
        exact hacc
      case pres =>
        intro q hq
        rw [hupd q.1, if_neg (fun h : q.1 = p.1 =>
          hnd.1 (h ▸ List.mem_map_of_mem Prod.fst hq))]
        exact hpres q (List.mem_cons_of_mem p hq)

/-- **C5, counterexample.**  `_merge_pii_data` stores
`list(set(merged[cat] + entities))` for a shared category, so the
result order is the `set` enumeration order, not first-seen order:
with a legitimate set-like enumeration (shown by the first conjunct)
merging the detection `{emails: [a@x.com, b@x.com]}` with itself
reorders the entity list, so self-merge is not the identity and
first-seen order is not preserved. -/
theorem c5_counterexample :
    SetLikeFn (fun l => (dedupFirst l).reverse) ∧
    mergePiiData (fun l => (dedupFirst l).reverse)
      [(strOf "emails", [strOf "a@x.com", strOf "b@x.com"])]
      [(strOf "emails", [strOf "a@x.com", strOf "b@x.com"])] ≠
      [(strOf "emails", [strOf "a@x.com", strOf "b@x.com"])] :=
  ⟨setLikeFn_revDedup, by decide⟩

/-- **C5, amended.**  What the two mergers really guarantee:
`_merge_pii_results` (the chunk-result merger) unions per category in
first-seen order and dedups by string equality — its lookup is the
order-preserving dedup of the concatenated per-category contributions —
and it is exactly idempotent on its own output.  `_merge_pii_data` (the
backend/regex pair merger) is idempotent only up to `set` reordering:
self-merge maps every value `v` to `σ (v ++ v)`, keeping the category
list and its order, and — for any set-like enumeration `σ` — keeping
each entity list duplicate-free with unchanged membership, but (by the
counterexample) not necessarily the order within a category. -/
theorem c5_merge_amended (rs : List (List (Str × List Str)))
    (σ : List Str → List Str) (m : List (Str × List Str)) (cat : Str)
    (hσ : SetLikeFn σ) (hm : (m.map Prod.fst).Nodup) :
    (lookupA (mergePiiResults rs) cat =
      if (rs.flatMap id).any (fun p => p.1 = cat) then
        some (dedupFirst (catContrib (rs.flatMap id) cat))
      else none) ∧
    mergePiiResults [mergePiiResults rs, mergePiiResults rs] =
      mergePiiResults rs ∧
    mergePiiData σ m m = m.map (fun q => (q.1, σ (q.2 ++ q.2))) ∧
    (mergePiiData σ m m).map Prod.fst = m.map Prod.fst ∧
    ∀ q ∈ m, (σ (q.2 ++ q.2)).Nodup ∧ ∀ x, x ∈ σ (q.2 ++ q.2) ↔ x ∈ q.2 := by
  have hself : mergePiiData σ m m = m.map (fun q => (q.1, σ (q.2 ++ q.2))) := by
    rw [mergeFold_double σ m m hm hm (fun p hp => by
      rw [lookupA_self_of_nodup hm p hp]; simp)]
    refine List.map_congr_left ?_
    intro q hq
    rw [lookupA_self_of_nodup hm q hq]
  refine ⟨?_, mergePiiResults_idem rs, hself, ?_, ?_⟩
  · have h0 : lookupA ([] : List (Str × List Str)) cat = none := rfl
    rw [mergePiiResults_eq, lookupA_mapval, lookupA_entriesFold, h0]
    by_cases h : (rs.flatMap id).any (fun p => p.1 = cat)
    · rw [if_pos h, if_pos h]
      rfl
    · rw [if_neg h, if_neg h]
      rfl
  · rw [hself, List.map_map]
    refine List.map_congr_left ?_
    intro q _
    rfl
  · intro q hq
    refine ⟨(hσ (q.2 ++ q.2)).1, ?_⟩
    intro x
    rw [(hσ (q.2 ++ q.2)).2 x, List.mem_append, or_self]

/-- **C5, witness.**  With Python's in-process stable enumeration
(first-seen dedup, which is set-like) a singleton already-deduped
detection is a self-merge fixed point of `_merge_pii_data`. -/
theorem c5_witness :
    mergePiiData dedupFirst [(strOf "emails", [strOf "a@x.com"])]
      [(strOf "emails", [strOf "a@x.com"])] =
      [(strOf "emails", [strOf "a@x.com"])] := by
  have h := c5_merge_amended [] dedupFirst
    [(strOf "emails", [strOf "a@x.com"])] [] setLikeFn_dedupFirst (by decide)
  rw [h.2.2.1]
  decide

theorem fdiv_self_of_neg (m : Int) (hm : m < 0) : m.fdiv m = 1 := by
  match m with
  | Int.ofNat n => exact absurd hm (by exact Int.not_lt.mpr (Int.ofNat_nonneg n))
  | Int.negSucc n =>
    show Int.ofNat (n.succ / n.succ) = 1
    rw [Nat.div_self (Nat.succ_pos n)]
    rfl

theorem splitOnChar_no_sep (sep : Char) :
    ∀ s : Str, (∀ c ∈ s, c ≠ sep) → splitOnChar sep s = [s] := by
  intro s
  induction s with
  | nil => intro _; rfl
  | cons c s ih =>
    intro h
    rw [splitOnChar, if_neg (h c (List.mem_cons_self _ _)),
      ih (fun d hd => h d (List.mem_cons_of_mem c hd))]

/-- A newline-free line whose token count exceeds `max_tokens` goes
entirely through the long-line branch: the output is the fragment loop's
chunk list, with `words_per_chunk` computed by the source's two floor
divisions. -/
theorem chunkText_single_line_long (κ : Str → Int) (mt : Int) (lb : Nat)
    (text : Str) (hnl : ∀ c ∈ text, c ≠ '\n') (hlong : κ text > mt)
    (hmt : ¬ mt = 0) (hws : ¬ splitWs text = []) :
    chunkText κ mt lb text =
      some ((longLineLoop lb
        (max 1 (((splitWs text).length : Int).fdiv
          (max 1 ((κ text + mt - 1).fdiv mt)))).toNat [] (splitWs text)).1) := by
  have hstep : chunkLineStep κ mt lb ⟨[], [], 0, []⟩ text =
      some ⟨(longLineLoop lb
          (max 1 (((splitWs text).length : Int).fdiv
            (max 1 ((κ text + mt - 1).fdiv mt)))).toNat [] (splitWs text)).1,
        [], 0,
        (longLineLoop lb
          (max 1 (((splitWs text).length : Int).fdiv
            (max 1 ((κ text + mt - 1).fdiv mt)))).toNat [] (splitWs text)).2⟩ := by
    simp only [chunkLineStep]
    rw [if_pos hlong, if_neg (fun hc : ([] : List Str) ≠ [] => hc rfl),
      if_neg hws, if_neg hmt]
    rcases hLL : longLineLoop lb
        (max 1 (((splitWs text).length : Int).fdiv
          (max 1 ((κ text + mt - 1).fdiv mt)))).toNat [] (splitWs text) with ⟨a, b⟩
    rfl
  have hcl : chunkLines κ mt lb ⟨[], [], 0, []⟩ [text] =
      some ⟨(longLineLoop lb
          (max 1 (((splitWs text).length : Int).fdiv
            (max 1 ((κ text + mt - 1).fdiv mt)))).toNat [] (splitWs text)).1,
        [], 0,
        (longLineLoop lb
          (max 1 (((splitWs text).length : Int).fdiv
            (max 1 ((κ text + mt - 1).fdiv mt)))).toNat [] (splitWs text)).2⟩ := by
    unfold chunkLines
    rw [hstep]
    rfl
  simp only [chunkText]
  rw [splitOnChar_no_sep '\n' text hnl, hcl]
  rfl

/-- Fragment count of the long-line loop: ceiling division of the word
count by the (clamped) slice width. -/
theorem longLineLoopGo_length (lb wpc : Nat) :
    ∀ (fuel : Nat) (ws prev : List Str), ws.length ≤ fuel →
      (longLineLoopGo lb wpc fuel prev ws).1.length =
        (ws.length + max 1 wpc - 1) / max 1 wpc := by
  have hs : 1 ≤ max 1 wpc := le_max_left 1 wpc
  intro fuel
  induction fuel with
  | zero =>
    intro ws prev h
    match ws, h with
    | [], _ =>
      show ([] : List Str).length = (0 + max 1 wpc - 1) / max 1 wpc
      rw [Nat.zero_add, Nat.div_eq_of_lt (by omega)]
      rfl
  | succ g ih =>
    intro ws prev h
    match ws with
    | [] =>
      show ([] : List Str).length = (0 + max 1 wpc - 1) / max 1 wpc
      rw [Nat.zero_add, Nat.div_eq_of_lt (by omega)]
      rfl
    | w :: ws' =>
      rw [longLineLoopGo]
      have hlen : ((w :: ws').drop (max 1 wpc)).length ≤ g := by
        simp only [List.length_drop, List.length_cons]
        simp at h
        omega
      show ((formatChunk _ prev) :: (longLineLoopGo lb wpc g _ _).1).length = _
      rw [List.length_cons, ih _ _ hlen]
      simp only [List.length_drop, List.length_cons]
      rcases le_or_lt (max 1 wpc) (ws'.length + 1) with hle | hgt
      · have h1 : ws'.length + 1 - max 1 wpc + max 1 wpc - 1 = ws'.length := by omega
        have h2 : ws'.length + 1 + max 1 wpc - 1 = ws'.length + max 1 wpc := by omega
        rw [h1, h2, Nat.add_div_right _ (by omega)]
      · have h1 : ws'.length + 1 - max 1 wpc = 0 := by omega
        rw [h1, Nat.zero_add, Nat.div_eq_of_lt (by omega)]
        have h2 : ws'.length + 1 + max 1 wpc - 1 = ws'.length + max 1 wpc := by omega
        rw [h2, Nat.add_div_right _ (by omega), Nat.div_eq_of_lt (by omega)]

/-- **C6, counterexample.**  `chunk_text` of the empty string yields one
chunk (the empty chunk), not zero: `"".split('\n')` is `[""]` and the
empty line is accumulated and flushed.  And a negative `max_tokens` is
not rejected: it silently produces chunks through the long-line branch. -/
theorem c6_counterexample :
    chunkText (fun t => ((splitWs t).length : Int)) 5 5 [] ≠ some [] ∧
    chunkText (fun t => ((splitWs t).length : Int)) 5 5 [] = some [[]] ∧
    chunkText (fun t => ((splitWs t).length : Int)) (-1) 5 (strOf "a") =
      some [strOf "a"] := by
  decide

/-- **C6, amended.**  The chunker's real edge-case behaviour: the empty
input yields exactly one empty chunk whenever the counter's value on the
empty line fits in `max_tokens` (zero chunks happen only in the opposite
case, where the empty line takes the long-line branch and `"".split()`
is empty); a negative `max_tokens` is accepted and chunks are produced;
`max_tokens = 0` is not validated either — it raises
`ZeroDivisionError` (`none`) as soon as a line has a positive token
count, instead of being rejected up front. -/
theorem c6_chunker_amended (κ : Str → Int) (mt : Int) (lb : Nat) :
    (κ [] ≤ mt → chunkText κ mt lb [] = some [[]]) ∧
    (mt < κ [] → chunkText κ mt lb [] = some []) ∧
    (mt < 0 → chunkText (fun t => ((splitWs t).length : Int)) mt lb (strOf "a") =
      some [strOf "a"]) ∧
    (0 < κ (strOf "a") → chunkText κ 0 lb (strOf "a") = none) := by
  refine ⟨?_, ?_, ?_, ?_⟩
  · intro h
    have hstep : chunkLineStep κ mt lb ⟨[], [], 0, []⟩ [] =
        some ⟨[], [[]], 0 + κ [], []⟩ := by
      simp only [chunkLineStep]
      rw [if_neg (not_lt.mpr h), if_neg (fun hc => hc.2 rfl)]
      rfl
    have hcl : chunkLines κ mt lb ⟨[], [], 0, []⟩ [[]] =
        some ⟨[], [[]], 0 + κ [], []⟩ := by
      unfold chunkLines
      rw [hstep]
      rfl
    simp only [chunkText]
    rw [show splitOnChar '\n' ([] : Str) = [[]] from rfl, hcl]
    rfl
  · intro h
    have hstep : chunkLineStep κ mt lb ⟨[], [], 0, []⟩ [] =
        some ⟨[], [], 0, []⟩ := by
      simp only [chunkLineStep]
      rw [if_pos h, if_neg (fun hc : ([] : List Str) ≠ [] => hc rfl),
        if_pos (show splitWs ([] : Str) = [] from rfl)]
    have hcl : chunkLines κ mt lb ⟨[], [], 0, []⟩ [[]] =
        some ⟨[], [], 0, []⟩ := by
      unfold chunkLines
      rw [hstep]
      rfl
    simp only [chunkText]
    rw [show splitOnChar '\n' ([] : Str) = [[]] from rfl, hcl]
    rfl
  · intro hmt
    have hcalc := chunkText_single_line_long
      (fun t => ((splitWs t).length : Int)) mt lb (strOf "a")
      (by decide) (by show (1 : Int) > mt; omega) (by omega) (by decide)
    refine hcalc.trans ?_
    have h1 : (((splitWs (strOf "a")).length : Int) + mt - 1) = mt := by
      show ((1 : Int) + mt - 1) = mt
      ring
    rw [h1, fdiv_self_of_neg mt hmt]
    rfl
  · intro h
    have hstep : chunkLineStep κ 0 lb ⟨[], [], 0, []⟩ (strOf "a") = none := by
      simp only [chunkLineStep]
      rw [if_pos h, if_neg (fun hc : ([] : List Str) ≠ [] => hc rfl),
        if_neg (by decide : ¬ splitWs (strOf "a") = []), if_pos trivial]
    have hcl : chunkLines κ 0 lb ⟨[], [], 0, []⟩ [strOf "a"] = none := by
      unfold chunkLines
      rw [hstep]
      rfl
    simp only [chunkText]
    rw [show splitOnChar '\n' (strOf "a") = [strOf "a"] from rfl, hcl]
    rfl

/-- **C6, witness.**  The amended behaviour at concrete inputs: a
word-count counter with `max_tokens = 5` maps `""` to the single empty
chunk; with `max_tokens = -1` the empty input gives zero chunks and
`"a"` still produces its chunk; `max_tokens = 0` on `"a"` raises. -/
theorem c6_witness :
    chunkText (fun t => ((splitWs t).length : Int)) 5 5 [] = some [[]] ∧
    chunkText (fun t => ((splitWs t).length : Int)) (-1) 5 [] = some [] ∧
    chunkText (fun t => ((splitWs t).length : Int)) (-1) 5 (strOf "a") =
      some [strOf "a"] ∧
    chunkText (fun t => ((splitWs t).length : Int)) 0 5 (strOf "a") = none :=
  ⟨(c6_chunker_amended (fun t => ((splitWs t).length : Int)) 5 5).1 (by decide),
   (c6_chunker_amended (fun t => ((splitWs t).length : Int)) (-1) 5).2.1 (by decide),
   (c6_chunker_amended (fun t => ((splitWs t).length : Int)) (-1) 5).2.2.1 (by decide),
   (c6_chunker_amended (fun t => ((splitWs t).length : Int)) 0 5).2.2.2 (by decide)⟩

/-- **C7, counterexample.**  A single 10-word line with a word-count
token counter and `max_tokens = 3`: the source computes
`chunks_needed = ceil(10/3) = 4` but then `words_per_chunk =
max(1, 10 // 4) = 2`, producing `ceil(10/2) = 5` fragments — not the
claimed `ceil(lineTokens / maxTokens) = 4`. -/
theorem c7_counterexample :
    (chunkText (fun t => ((splitWs t).length : Int)) 3 5
      (strOf "a b c d e f g h i j")).map List.length = some 5 ∧
    ((fun t => ((splitWs t).length : Int)) (strOf "a b c d e f g h i j")
      + 3 - 1).fdiv 3 = 4 := by
  decide

/-- **C7, amended.**  For a single overlong line (no newline, token
count above `max_tokens`, `max_tokens ≠ 0`, at least one word) the
chunker emits the long-line loop's fragments, one chunk per slice of
`words_per_chunk = max(1, len(words) // max(1, ceil(lineTokens /
maxTokens)))` words with lookback carried between fragments — and the
fragment count is `ceil(len(words) / words_per_chunk)`, which can
exceed `ceil(lineTokens / maxTokens)`. -/
theorem c7_amended (κ : Str → Int) (mt : Int) (lb : Nat) (text : Str)
    (hnl : ∀ c ∈ text, c ≠ '\n') (hlong : κ text > mt) (hmt : ¬ mt = 0)
    (hws : ¬ splitWs text = []) :
    chunkText κ mt lb text =
      some ((longLineLoop lb
        (max 1 (((splitWs text).length : Int).fdiv
          (max 1 ((κ text + mt - 1).fdiv mt)))).toNat [] (splitWs text)).1) ∧
    ((longLineLoop lb
        (max 1 (((splitWs text).length : Int).fdiv
          (max 1 ((κ text + mt - 1).fdiv mt)))).toNat [] (splitWs text)).1).length =
      ((splitWs text).length +
        (max 1 (((splitWs text).length : Int).fdiv
          (max 1 ((κ text + mt - 1).fdiv mt)))).toNat - 1) /
      (max 1 (((splitWs text).length : Int).fdiv
        (max 1 ((κ text + mt - 1).fdiv mt)))).toNat := by
  refine ⟨chunkText_single_line_long κ mt lb text hnl hlong hmt hws, ?_⟩
  have hW : 1 ≤ (max 1 (((splitWs text).length : Int).fdiv
      (max 1 ((κ text + mt - 1).fdiv mt)))).toNat := by
    have h1 : (1 : Int) ≤ max 1 (((splitWs text).length : Int).fdiv
        (max 1 ((κ text + mt - 1).fdiv mt))) :=
      le_max_left _ _
    omega
  have := longLineLoopGo_length lb
    (max 1 (((splitWs text).length : Int).fdiv
      (max 1 ((κ text + mt - 1).fdiv mt)))).toNat
    (splitWs text).length (splitWs text) [] le_rfl
  rw [longLineLoop, this, Nat.max_eq_right hW]

/-- **C7, witness.**  The amended count on the 10-word line with
`max_tokens = 3`: `words_per_chunk = 2` and the chunker emits
`ceil(10/2) = 5` fragments. -/
theorem c7_witness :
    (chunkText (fun t => ((splitWs t).length : Int)) 3 5
      (strOf "a b c d e f g h i j")).map List.length = some 5 := by
  have h := c7_amended (fun t => ((splitWs t).length : Int)) 3 5
    (strOf "a b c d e f g h i j") (by decide) (by decide) (by decide) (by decide)
  rw [h.1]
  decide

/-- The forced-PERSON block of `anonymize_moodle_submission` (the
`if anonymized_name == name_part:` body), as a named function of the
name part, the anonymizer's answer and its state. -/
def moodleForce (namePart an : Str) (mp : List (Str × Str)) (st1 : AnonState) :
    Str × List (Str × Str) × AnonState :=
  if an = namePart then
    match lookupA st1.memory namePart with
    | none =>
      let n := ctrGet st1.counters (strOf "PERSON") + 1
      let tag := strOf "REDACTED_PERSON" ++ strOf (toString n)
      (tag, [(tag, namePart)],
       AnonState.mk (dictSet st1.counters (strOf "PERSON") n)
         (st1.memory ++ [(namePart, tag)]))
    | some tag => (tag, [(tag, namePart)], st1)
  else (an, mp, st1)

/-- Does an output filename have the claim's shape
`REDACTED_PERSON<k>_<ID>_assignsubmission_<type>` (name group exactly a
`REDACTED_PERSON` token)? -/
def moodleClaimForm (out : Str) : Bool :=
  match moodleMatch out with
  | some (name, _, _) =>
    (strOf "REDACTED_PERSON").isPrefixOf name &&
      !(name.drop (strOf "REDACTED_PERSON").length).isEmpty &&
      (name.drop (strOf "REDACTED_PERSON").length).all (·.isDigit)
  | none => false

theorem digitChar_lt_not_space :
    ∀ m, m < 10 → pyIsSpace (Nat.digitChar m) = false := by decide

theorem toDigitsCore_not_space :
    ∀ (fuel n : Nat) (ds : List Char), (∀ c ∈ ds, pyIsSpace c = false) →
      ∀ c ∈ Nat.toDigitsCore 10 fuel n ds, pyIsSpace c = false := by
  intro fuel
  induction fuel with
  | zero => intro n ds hds c hc; exact hds c hc
  | succ g ih =>
    intro n ds hds c hc
    have hd : pyIsSpace (Nat.digitChar (n % 10)) = false :=
      digitChar_lt_not_space (n % 10) (Nat.mod_lt n (by decide))
    have hstep : Nat.toDigitsCore 10 (g + 1) n ds =
        if n / 10 = 0 then Nat.digitChar (n % 10) :: ds
        else Nat.toDigitsCore 10 g (n / 10) (Nat.digitChar (n % 10) :: ds) := rfl
    rw [hstep] at hc
    by_cases h0 : n / 10 = 0
    · rw [if_pos h0] at hc
      rcases List.mem_cons.mp hc with rfl | hc2
      · exact hd
      · exact hds c hc2
    · rw [if_neg h0] at hc
      exact ih (n / 10) (Nat.digitChar (n % 10) :: ds)
        (fun d hdm => (List.mem_cons.mp hdm).elim (fun he => he ▸ hd) (hds d)) c hc

/-- Every character of `str(n)` for a natural `n` is a digit, hence not
whitespace. -/
theorem toString_nat_not_space (n : Nat) :
    ∀ c ∈ strOf (toString n), pyIsSpace c = false := by
  intro c hc
  exact toDigitsCore_not_space (n + 1) n [] (by intro d hd; cases hd) c hc

theorem redactedPerson_not_space (n : Nat) :
    ∀ c ∈ strOf "REDACTED_PERSON" ++ strOf (toString n), pyIsSpace c = false := by
  intro c hc
  rcases List.mem_append.mp hc with h | h
  · exact (by decide : ∀ c ∈ strOf "REDACTED_PERSON", pyIsSpace c = false) c h
  · exact toString_nat_not_space n c h

/-- `s.strip()` of a whitespace-free string is the string itself. -/
theorem pyStrip_eq_self (s : Str) (h : ∀ c ∈ s, pyIsSpace c = false) :
    pyStrip s = s := by
  unfold pyStrip
  have h1 : s.dropWhile (pyIsSpace ·) = s := by
    rw [List.dropWhile_eq_self_iff]
    intro hl
    simp only [List.get_eq_getElem, Bool.not_eq_true]
    exact h _ (List.getElem_mem hl)
  have h2 : s.reverse.dropWhile (pyIsSpace ·) = s.reverse := by
    rw [List.dropWhile_eq_self_iff]
    intro hl
    simp only [List.get_eq_getElem, Bool.not_eq_true]
    exact h _ (List.mem_reverse.mp (List.getElem_mem hl))
  rw [h1, h2, List.reverse_reverse]

theorem anonymizeMoodleSubmission_noneCase (κ : Str → Int) (mt : Int)
    (By : Str → List (Str × List Str)) (σ : List Str → List Str)
    (st : AnonState) (filename namePart idPart sfx : Str)
    (hm : moodleMatch filename = some (namePart, idPart, sfx))
    (hdata : anonymizeData κ mt By σ st namePart = none) :
    anonymizeMoodleSubmission κ mt By σ st filename = none := by
  unfold anonymizeMoodleSubmission
  simp only [hm, hdata]

theorem anonymizeMoodleSubmission_some (κ : Str → Int) (mt : Int)
    (By : Str → List (Str × List Str)) (σ : List Str → List Str)
    (st : AnonState) (filename namePart idPart sfx an : Str)
    (mp : List (Str × Str)) (st1 : AnonState)
    (hdata : anonymizeData κ mt By σ st namePart = some (an, mp, st1))
    (hm : moodleMatch filename = some (namePart, idPart, sfx))
    (a : Str) (b : List (Str × Str)) (c : AnonState)
    (hmf : moodleForce namePart an mp st1 = (a, b, c)) :
    anonymizeMoodleSubmission κ mt By σ st filename =
      some ((pyStrip a ++ '_' :: idPart ++ '_' :: sfx, b), c) := by
  unfold anonymizeMoodleSubmission
  simp only [hm, hdata]
  rw [show (if an = namePart then
      match lookupA st1.memory namePart with
      | none =>
        let n := ctrGet st1.counters (strOf "PERSON") + 1
        let tag := strOf "REDACTED_PERSON" ++ strOf (toString n)
        (tag, [(tag, namePart)],
         AnonState.mk (dictSet st1.counters (strOf "PERSON") n)
           (st1.memory ++ [(namePart, tag)]))
      | some tag => (tag, [(tag, namePart)], st1)
    else (an, mp, st1)) = (a, b, c) from hmf]

/-- **C8, counterexample.**  When a backend flags only part of the
student name (here `Zephyr` of `Zephyr Quixote`), the anonymized name
is *not* unchanged, so no PERSON token is forced: the directory becomes
`REDACTED_PERSON1 Quixote_325223_assignsubmission_file`, which is not
of the claimed `REDACTED_PERSON<k>_<ID>_<suffix>` shape (the name group
still leaks `Quixote`). -/
theorem c8_counterexample :
    (anonymizeFilename (fun _ => 1) 100
        (fun _ => [(strOf "persons", [strOf "Zephyr"])]) dedupFirst freshState
        (strOf "Zephyr Quixote_325223_assignsubmission_file") true).map
        (fun r => r.1) =
      some (strOf "REDACTED_PERSON1 Quixote_325223_assignsubmission_file",
        [(strOf "REDACTED_PERSON1", strOf "Zephyr")]) ∧
    moodleClaimForm
      (strOf "REDACTED_PERSON1 Quixote_325223_assignsubmission_file") = false := by
  decide

/-- **C8, amended.**  What the Moodle renaming really guarantees, for a
directory name matching `(.+?)_(\d+)_(assignsubmission_\w+)$` (and not
the grades file): (1) for every backend and registry state, a
successful run preserves the numeric ID and the `assignsubmission`
suffix verbatim around some anonymized core; (2) the PERSON token is
forced exactly when the anonymizer returns the name part unchanged —
if moreover the name is not in entity memory, the output is
`REDACTED_PERSON<k>_<ID>_<suffix>` with `k` the successor of the
PERSON counter, and the mapping is that single forced pair; (3)
`moodle_grades.csv` is returned unchanged with no mappings, for every
state. -/
theorem c8_amended (κ : Str → Int) (mt : Int)
    (By : Str → List (Str × List Str)) (σ : List Str → List Str)
    (st : AnonState) (filename namePart idPart sfx : Str) (isDir : Bool)
    (hm : moodleMatch filename = some (namePart, idPart, sfx))
    (hgr : ¬ filename = strOf "moodle_grades.csv") :
    (∀ res, anonymizeFilename κ mt By σ st filename isDir = some res →
      ∃ core, res.1.1 = core ++ '_' :: idPart ++ '_' :: sfx) ∧
    (∀ mp0 st1,
      anonymizeData κ mt By σ st namePart = some (namePart, mp0, st1) →
      lookupA st1.memory namePart = none →
      (anonymizeFilename κ mt By σ st filename isDir).map (fun r => r.1) =
        some ((strOf "REDACTED_PERSON" ++
            strOf (toString (ctrGet st1.counters (strOf "PERSON") + 1))) ++
            '_' :: idPart ++ '_' :: sfx,
          [(strOf "REDACTED_PERSON" ++
            strOf (toString (ctrGet st1.counters (strOf "PERSON") + 1)),
            namePart)])) ∧
    (∀ (b : Bool) (st₀ : AnonState),
      anonymizeFilename κ mt By σ st₀ (strOf "moodle_grades.csv") b =
        some ((strOf "moodle_grades.csv", []), st₀)) := by
  have hb : isMoodleSubmission filename = true := by
    unfold isMoodleSubmission
    rw [hm]
    rfl
  have hred : anonymizeFilename κ mt By σ st filename isDir =
      anonymizeMoodleSubmission κ mt By σ st filename := by
    unfold anonymizeFilename
    rw [if_neg hgr, if_pos hb]
  refine ⟨?_, ?_, ?_⟩
  · intro res hres
    rw [hred] at hres
    rcases hdata : anonymizeData κ mt By σ st namePart with - | ⟨an, mp1, st1⟩
    · rw [anonymizeMoodleSubmission_noneCase κ mt By σ st filename namePart
        idPart sfx hm hdata] at hres
      exact absurd hres (by simp)
    · rcases hmf : moodleForce namePart an mp1 st1 with ⟨a, b, c⟩
      rw [anonymizeMoodleSubmission_some κ mt By σ st filename namePart idPart
        sfx an mp1 st1 hdata hm a b c hmf] at hres
      exact ⟨pyStrip a, by rw [← Option.some.inj hres]⟩
  · intro mp0 st1 hdata hmem
    have hmf : moodleForce namePart namePart mp0 st1 =
        (strOf "REDACTED_PERSON" ++
           strOf (toString (ctrGet st1.counters (strOf "PERSON") + 1)),
         [(strOf "REDACTED_PERSON" ++
           strOf (toString (ctrGet st1.counters (strOf "PERSON") + 1)),
           namePart)],
         AnonState.mk
           (dictSet st1.counters (strOf "PERSON")
             (ctrGet st1.counters (strOf "PERSON") + 1))
           (st1.memory ++ [(namePart, strOf "REDACTED_PERSON" ++
             strOf (toString (ctrGet st1.counters (strOf "PERSON") + 1)))])) := by
      unfold moodleForce
      rw [if_pos rfl, hmem]
    rw [hred, anonymizeMoodleSubmission_some κ mt By σ st filename namePart
      idPart sfx namePart mp0 st1 hdata hm _ _ _ hmf]
    simp only [Option.map_some']
    rw [pyStrip_eq_self _ (redactedPerson_not_space _)]
  · intro b st₀
    unfold anonymizeFilename
    rw [if_pos rfl]

/-- **C8, witness.**  On `Zephyr Quixote_325223_assignsubmission_file`
with a backend that reports nothing, the forced-PERSON branch fires:
the output is `REDACTED_PERSON1_325223_assignsubmission_file` with the
single forced mapping, exactly as the amended statement computes. -/
theorem c8_witness :
    (anonymizeFilename (fun _ => 1) 100 (fun _ => []) dedupFirst freshState
        (strOf "Zephyr Quixote_325223_assignsubmission_file") true).map
        (fun r => r.1) =
      some (strOf "REDACTED_PERSON1_325223_assignsubmission_file",
        [(strOf "REDACTED_PERSON1", strOf "Zephyr Quixote")]) := by
  have h := (c8_amended (fun _ => 1) 100 (fun _ => []) dedupFirst freshState
    (strOf "Zephyr Quixote_325223_assignsubmission_file")
    (strOf "Zephyr Quixote") (strOf "325223")
    (strOf "assignsubmission_file") true (by decide) (by decide)).2.1
  have h2 := h [] freshState (by decide) rfl
  rw [h2]
  decide

theorem procStep_ok (procOne : Str → Except Str (Str × Str × List (Str × Str)))
    (acc : DirMappings × List FsAction) (f p c : Str)
    (ms : List (Str × Str)) (hf : procOne f = .ok (p, c, ms)) :
    procStep procOne acc f =
      (⟨ms.foldl (fun m q => dictSet m q.1 q.2) acc.1.mappings,
        { acc.1.statistics with
          processedFiles := acc.1.statistics.processedFiles + 1 }⟩,
       acc.2 ++ [.writeFile p c]) := by
  unfold procStep
  rw [hf]

theorem procStep_error (procOne : Str → Except Str (Str × Str × List (Str × Str)))
    (acc : DirMappings × List FsAction) (f e : Str)
    (hf : procOne f = .error e) :
    procStep procOne acc f =
      (⟨acc.1.mappings,
        { acc.1.statistics with
          errors := acc.1.statistics.errors ++ [(f, e)],
          skippedFiles := acc.1.statistics.skippedFiles + 1 }⟩,
       acc.2) := by
  unfold procStep
  rw [hf]

theorem procFold_errors (procOne : Str → Except Str (Str × Str × List (Str × Str))) :
    ∀ (files : List Str) (acc : DirMappings × List FsAction),
      (files.foldl (procStep procOne) acc).1.statistics.errors =
        acc.1.statistics.errors ++ files.filterMap (fun f =>
          match procOne f with
          | .error e => some (f, e)
          | .ok _ => none) := by
  intro files
  induction files with
  | nil => intro acc; simp
  | cons f files ih =>
    intro acc
    rw [List.foldl_cons]
    rcases hf : procOne f with e | trip
    · rw [procStep_error procOne acc f e hf, ih]
      simp [List.filterMap_cons, hf]
    · rcases trip with ⟨p, c, ms⟩
      rw [procStep_ok procOne acc f p c ms hf, ih]
      simp [List.filterMap_cons, hf]

theorem procFold_skipped (procOne : Str → Except Str (Str × Str × List (Str × Str))) :
    ∀ (files : List Str) (acc : DirMappings × List FsAction),
      (files.foldl (procStep procOne) acc).1.statistics.skippedFiles =
        acc.1.statistics.skippedFiles + (files.filter (fun f =>
          match procOne f with
          | .error _ => true
          | .ok _ => false)).length := by
  intro files
  induction files with
  | nil => intro acc; simp
  | cons f files ih =>
    intro acc
    rw [List.foldl_cons]
    rcases hf : procOne f with e | trip
    · rw [procStep_error procOne acc f e hf, ih]
      simp [List.filter_cons, hf]
      omega
    · rcases trip with ⟨p, c, ms⟩
      rw [procStep_ok procOne acc f p c ms hf, ih]
      simp [List.filter_cons, hf]

theorem procFold_processed (procOne : Str → Except Str (Str × Str × List (Str × Str))) :
    ∀ (files : List Str) (acc : DirMappings × List FsAction),
      (files.foldl (procStep procOne) acc).1.statistics.processedFiles =
        acc.1.statistics.processedFiles + (files.filter (fun f =>
          match procOne f with
          | .ok _ => true
          | .error _ => false)).length := by
  intro files
  induction files with
  | nil => intro acc; simp
  | cons f files ih =>
    intro acc
    rw [List.foldl_cons]
    rcases hf : procOne f with e | trip
    · rw [procStep_error procOne acc f e hf, ih]
      simp [List.filter_cons, hf]
    · rcases trip with ⟨p, c, ms⟩
      rw [procStep_ok procOne acc f p c ms hf, ih]
      simp [List.filter_cons, hf]
      omega

theorem procFold_total (procOne : Str → Except Str (Str × Str × List (Str × Str))) :
    ∀ (files : List Str) (acc : DirMappings × List FsAction),
      (files.foldl (procStep procOne) acc).1.statistics.totalFiles =
        acc.1.statistics.totalFiles := by
  intro files
  induction files with
  | nil => intro acc; rfl
  | cons f files ih =>
    intro acc
    rw [List.foldl_cons]
    rcases hf : procOne f with e | trip
    · rw [procStep_error procOne acc f e hf, ih]
    · rcases trip with ⟨p, c, ms⟩
      rw [procStep_ok procOne acc f p c ms hf, ih]

theorem procFold_actions (procOne : Str → Except Str (Str × Str × List (Str × Str))) :
    ∀ (files : List Str) (acc : DirMappings × List FsAction),
      (files.foldl (procStep procOne) acc).2 =
        acc.2 ++ files.filterMap (fun f =>
          match procOne f with
          | .ok r => some (FsAction.writeFile r.1 r.2.1)
          | .error _ => none) := by
  intro files
  induction files with
  | nil => intro acc; simp
  | cons f files ih =>
    intro acc
    rw [List.foldl_cons]
    rcases hf : procOne f with e | trip
    · rw [procStep_error procOne acc f e hf, ih]
      simp [List.filterMap_cons, hf]
    · rcases trip with ⟨p, c, ms⟩
      rw [procStep_ok procOne acc f p c ms hf, ih]
      simp [List.filterMap_cons, hf]

/-- **C9.**  Partial-failure semantics of `process_directory`: over any
gathered file list and any behaviour of the per-file work (the
`anonymize_one_file` oracle, whose exceptions are the `error` cases),
the final statistics record exactly the failing files in order with
their messages in `errors`, count them as skipped, count the succeeding
files as processed (so a failure never stops the loop: later files are
still processed and their outputs still written), record the total, and
the run ends by writing the unified mapping file regardless of
errors. -/
theorem c9_partial_failure (files : List Str)
    (procOne : Str → Except Str (Str × Str × List (Str × Str))) :
    (processDirectory files procOne).1.statistics.errors =
      files.filterMap (fun f =>
        match procOne f with
        | .error e => some (f, e)
        | .ok _ => none) ∧
    (processDirectory files procOne).1.statistics.skippedFiles =
      (files.filter (fun f =>
        match procOne f with
        | .error _ => true
        | .ok _ => false)).length ∧
    (processDirectory files procOne).1.statistics.processedFiles =
      (files.filter (fun f =>
        match procOne f with
        | .ok _ => true
        | .error _ => false)).length ∧
    (processDirectory files procOne).1.statistics.totalFiles = files.length ∧
    (processDirectory files procOne).2 =
      files.filterMap (fun f =>
        match procOne f with
        | .ok r => some (FsAction.writeFile r.1 r.2.1)
        | .error _ => none) ++
      [FsAction.writeMappingFile (processDirectory files procOne).1] := by
  unfold processDirectory
  refine ⟨?_, ?_, ?_, ?_, ?_⟩
  · have h := procFold_errors procOne files (⟨[], ⟨files.length, 0, 0, []⟩⟩, [])
    simpa using h
  · have h := procFold_skipped procOne files (⟨[], ⟨files.length, 0, 0, []⟩⟩, [])
    simpa using h
  · have h := procFold_processed procOne files (⟨[], ⟨files.length, 0, 0, []⟩⟩, [])
    simpa using h
  · have h := procFold_total procOne files (⟨[], ⟨files.length, 0, 0, []⟩⟩, [])
    simpa using h
  · have h := procFold_actions procOne files (⟨[], ⟨files.length, 0, 0, []⟩⟩, [])
    simp [h]

end Mira
